import Mathlib

/-!
Verification of the goflac FLAC stream encoder.

This file gives a shallow embedding of the encoder found in `bitwriter.go`
and `sine.go` of the goflac repository, and settles a list of claims about
it.  Go machine integers are modelled as `Nat`/`Int` with explicit
reductions modulo `2^w` at the points where the Go code can overflow;
fallible Go code (returned `error` values as well as runtime panics) is
modelled with `Except GoError`.  All definitions are executable, so the
theorems can be instantiated on concrete inputs by `decide`/`rfl`.
-/

namespace Goflac

/-- Errors of the Go program.  `returned` models an `error` value returned
from a function; `runtime` models a panic (index/slice out of range). -/
inductive GoError where
  | returned : String → GoError
  | runtime : String → GoError
deriving DecidableEq, Repr

/-- Reading `l[i]` in Go: panics when the index is out of range. -/
def goIndex {α : Type} (l : List α) (i : Nat) : Except GoError α :=
  if h : i < l.length then .ok (l.get ⟨i, h⟩)
  else .error (.runtime "index out of range")

/-- The Go slice expression `s[lo:hi]`: panics unless `lo ≤ hi ≤ cap(s)`.
All slices in this program are freshly made, so `cap(s) = len(s)`. -/
def goSlice (s : List Int) (lo hi : Nat) : Except GoError (List Int) :=
  if lo ≤ hi ∧ hi ≤ s.length then .ok ((s.drop lo).take (hi - lo))
  else .error (.runtime "slice bounds out of range")

/-- Reduction of an `Int` into the signed 32-bit range, modelling Go `int32`
wrap-around arithmetic. -/
def i32 (x : Int) : Int := (x + 2 ^ 31) % 2 ^ 32 - 2 ^ 31

/-- Conversion of a Go signed integer to `uint64` (reinterpretation modulo
`2^64`). -/
def intToUint64 (x : Int) : Nat := (x % (2 ^ 64 : Int)).toNat

/-- The `n` low bits of `v`, most significant first, as a list of booleans.
This is the abstract bit stream that the bit writer is supposed to emit. -/
def natToBits : Nat → Nat → List Bool
  | 0, _ => []
  | n + 1, v => natToBits n (v / 2) ++ [decide (v % 2 = 1)]

/-- The bit stream of a byte buffer: each byte contributes its 8 bits,
most significant first. -/
def bytesBits : List Nat → List Bool
  | [] => []
  | b :: rest => natToBits 8 b ++ bytesBits rest

/-- State of `bitWriter` (bitwriter.go): an emitted byte buffer, a 64-bit
accumulator `current` and the number `bitCount` of bits it holds. -/
structure BitWriter where
  buf : List Nat
  current : Nat
  bitCount : Nat
deriving DecidableEq, Repr

/-- The `newBitWriter` constructor: empty buffer, empty accumulator. -/
def newBitWriter : BitWriter := ⟨[], 0, 0⟩

/-- The value of the Go `uint64` expression `(1 << n) - 1`: for `n < 64`
this is `2^n - 1`; for `n ≥ 64` the shift wraps to `0` and the subtraction
underflows to `2^64 - 1`. -/
def goMask64 (n : Nat) : Nat := ((1 <<< n) % 2 ^ 64 + 2 ^ 64 - 1) % 2 ^ 64

/-- The `for bw.bitCount >= 8` loop of `bitWriter.writeBits`: while at least
8 bits are buffered, shift out the top byte, append it to `buf`, and mask
the accumulator down to the remaining `bitCount` bits.  The loop condition
`bitCount ≥ 8` is expressed by the `bc + 8` pattern. -/
def flushLoop : Nat → Nat → List Nat → BitWriter
  | cur, bc + 8, buf =>
    flushLoop (cur &&& goMask64 bc) bc (buf ++ [(cur >>> bc) % 256])
  | cur, bc, buf => ⟨buf, cur, bc⟩

/-- The `bitWriter.writeBits` method: a no-op for `n = 0`; otherwise shift
the masked low `n` bits of `value` into the 64-bit accumulator (Go `uint64`
arithmetic, hence the reduction modulo `2^64`) and flush complete bytes. -/
def BitWriter.writeBits (bw : BitWriter) (value : Nat) (n : Nat) : BitWriter :=
  if n = 0 then bw
  else flushLoop ((bw.current <<< n) % 2 ^ 64 ||| (value &&& goMask64 n))
    (bw.bitCount + n) bw.buf

/-- The `bitWriter.writeBitsSigned` method: a negative value is sent as
`uint64((1 << n) + value)`, a non-negative one as `uint64(value)`. -/
def BitWriter.writeBitsSigned (bw : BitWriter) (value : Int) (n : Nat) : BitWriter :=
  let uval : Nat :=
    if value < 0 then intToUint64 (((1 <<< n : Nat) : Int) + value)
    else intToUint64 value
  bw.writeBits uval n

/-- The `bitWriter.writeUTF8` method: the FLAC UTF-8-like encoding of a
counter value, emitted as one to seven whole bytes via `writeBits _ 8`. -/
def BitWriter.writeUTF8 (bw : BitWriter) (value : Nat) : BitWriter :=
  if value < 0x80 then
    bw.writeBits value 8
  else if value < 0x800 then
    ((bw.writeBits (0xC0 ||| (value >>> 6)) 8).writeBits (0x80 ||| (value &&& 0x3F)) 8)
  else if value < 0x10000 then
    (((bw.writeBits (0xE0 ||| (value >>> 12)) 8).writeBits
      (0x80 ||| ((value >>> 6) &&& 0x3F)) 8).writeBits (0x80 ||| (value &&& 0x3F)) 8)
  else if value < 0x200000 then
    ((((bw.writeBits (0xF0 ||| (value >>> 18)) 8).writeBits
      (0x80 ||| ((value >>> 12) &&& 0x3F)) 8).writeBits
      (0x80 ||| ((value >>> 6) &&& 0x3F)) 8).writeBits (0x80 ||| (value &&& 0x3F)) 8)
  else if value < 0x4000000 then
    (((((bw.writeBits (0xF8 ||| (value >>> 24)) 8).writeBits
      (0x80 ||| ((value >>> 18) &&& 0x3F)) 8).writeBits
      (0x80 ||| ((value >>> 12) &&& 0x3F)) 8).writeBits
      (0x80 ||| ((value >>> 6) &&& 0x3F)) 8).writeBits (0x80 ||| (value &&& 0x3F)) 8)
  else if value < 0x80000000 then
    ((((((bw.writeBits (0xFC ||| (value >>> 30)) 8).writeBits
      (0x80 ||| ((value >>> 24) &&& 0x3F)) 8).writeBits
      (0x80 ||| ((value >>> 18) &&& 0x3F)) 8).writeBits
      (0x80 ||| ((value >>> 12) &&& 0x3F)) 8).writeBits
      (0x80 ||| ((value >>> 6) &&& 0x3F)) 8).writeBits (0x80 ||| (value &&& 0x3F)) 8)
  else
    (((((((bw.writeBits (0xFE ||| (value >>> 36)) 8).writeBits
      (0x80 ||| ((value >>> 30) &&& 0x3F)) 8).writeBits
      (0x80 ||| ((value >>> 24) &&& 0x3F)) 8).writeBits
      (0x80 ||| ((value >>> 18) &&& 0x3F)) 8).writeBits
      (0x80 ||| ((value >>> 12) &&& 0x3F)) 8).writeBits
      (0x80 ||| ((value >>> 6) &&& 0x3F)) 8).writeBits (0x80 ||| (value &&& 0x3F)) 8)

/-- The `bitWriter.alignToByte` method: pad with zero bits up to the next
byte boundary. -/
def BitWriter.alignToByte (bw : BitWriter) : BitWriter :=
  if 0 < bw.bitCount then bw.writeBits 0 (8 - bw.bitCount) else bw

/-- The `bitWriter.bytes` method returns only the whole bytes emitted so
far (`buf`), never the partially filled accumulator. -/
def BitWriter.bytes (bw : BitWriter) : List Nat := bw.buf

/-- The abstract bit stream held by a writer: the bits of the flushed bytes
followed by the `bitCount` buffered bits of the accumulator. -/
def BitWriter.bitstream (bw : BitWriter) : List Bool :=
  bytesBits bw.buf ++ natToBits bw.bitCount bw.current

/-- Well-formedness of a writer state: fewer than 8 buffered bits, and the
accumulator holds nothing above them.  `newBitWriter` is well formed and
every `writeBits` call (with `n ≤ 64`) preserves this. -/
def BitWriter.wf (bw : BitWriter) : Prop :=
  bw.current < 2 ^ bw.bitCount ∧ bw.bitCount < 8

instance (bw : BitWriter) : Decidable bw.wf := by
  unfold BitWriter.wf; infer_instance

/-! The CRC engine (sine.go, `calculateCRC8` / `calculateCRC16`). -/

/-- One iteration of the CRC-8 inner loop: shift the 8-bit register left
(Go `uint8` arithmetic wraps modulo 256) and xor the polynomial `0x07` when
the top bit was set. -/
def crc8Step (crc : Nat) : Nat :=
  if crc &&& 0x80 ≠ 0 then ((crc <<< 1) % 256) ^^^ 0x07 else (crc <<< 1) % 256

/-- The `for i := 0; i < 8; i++` loop of `calculateCRC8`. -/
def crc8Rounds : Nat → Nat → Nat
  | 0, crc => crc
  | k + 1, crc => crc8Rounds k (crc8Step crc)

/-- The `calculateCRC8` function: initial register 0; per input byte, xor
the byte in and run 8 shift rounds. -/
def calculateCRC8 (data : List Nat) : Nat :=
  data.foldl (fun crc b => crc8Rounds 8 (crc ^^^ b)) 0

/-- One iteration of the CRC-16 inner loop: 16-bit register, polynomial
`0x8005`, Go `uint16` arithmetic. -/
def crc16Step (crc : Nat) : Nat :=
  if crc &&& 0x8000 ≠ 0 then ((crc <<< 1) % 65536) ^^^ 0x8005 else (crc <<< 1) % 65536

/-- The `for i := 0; i < 8; i++` loop of `calculateCRC16`. -/
def crc16Rounds : Nat → Nat → Nat
  | 0, crc => crc
  | k + 1, crc => crc16Rounds k (crc16Step crc)

/-- The `calculateCRC16` function: initial register 0; per input byte, xor
`uint16(b) << 8` in and run 8 shift rounds. -/
def calculateCRC16 (data : List Nat) : Nat :=
  data.foldl (fun crc b => crc16Rounds 8 (crc ^^^ (b <<< 8))) 0

/-! The code tables (sine.go).  A Go `switch` on an integer is an ordered
if-chain over its cases, which is how it is written here. -/

/-- The `getBlockSizeCode` function. -/
def getBlockSizeCode (blockSize : Nat) : Nat :=
  if blockSize = 192 then 0x01
  else if blockSize = 576 then 0x02
  else if blockSize = 1152 then 0x03
  else if blockSize = 2304 then 0x04
  else if blockSize = 4608 then 0x05
  else if blockSize = 256 then 0x08
  else if blockSize = 512 then 0x09
  else if blockSize = 1024 then 0x0A
  else if blockSize = 2048 then 0x0B
  else if blockSize = 4096 then 0x0C
  else if blockSize = 8192 then 0x0D
  else if blockSize = 16384 then 0x0E
  else if blockSize = 32768 then 0x0F
  else if blockSize ≤ 256 then 0x06
  else 0x07

/-- The `getSampleRateCode` function. -/
def getSampleRateCode (sampleRate : Nat) : Nat :=
  if sampleRate = 88200 then 0x01
  else if sampleRate = 176400 then 0x02
  else if sampleRate = 192000 then 0x03
  else if sampleRate = 8000 then 0x04
  else if sampleRate = 16000 then 0x05
  else if sampleRate = 22050 then 0x06
  else if sampleRate = 24000 then 0x07
  else if sampleRate = 32000 then 0x08
  else if sampleRate = 44100 then 0x09
  else if sampleRate = 48000 then 0x0A
  else if sampleRate = 96000 then 0x0B
  else if sampleRate % 1000 = 0 ∧ sampleRate / 1000 < 256 then 0x0C
  else if sampleRate < 65536 then 0x0D
  else 0x0E

/-- The `getSampleSizeCode` function. -/
def getSampleSizeCode (bitsPerSample : Nat) : Nat :=
  if bitsPerSample = 8 then 0x01
  else if bitsPerSample = 12 then 0x02
  else if bitsPerSample = 16 then 0x04
  else if bitsPerSample = 20 then 0x05
  else if bitsPerSample = 24 then 0x06
  else if bitsPerSample = 32 then 0x07
  else 0x00

/-! The encoder (sine.go). -/

/-- The `Encoder` struct.  The `minFrameSize`/`maxFrameSize` fields are
never read or written by the source and are omitted; `md5sum` is the
all-zero array and is inlined where it is copied. -/
structure Encoder where
  sampleRate : Nat
  channels : Nat
  bitsPerSample : Nat
  totalSamples : Nat
  blockSize : Nat
deriving DecidableEq, Repr

/-- The `NewEncoder` constructor: validates channels (1..8) and bits per
sample (1..32) and fixes the block size at 4096. -/
def NewEncoder (sampleRate channels bitsPerSample : Nat) : Except GoError Encoder :=
  if channels = 0 ∨ channels > 8 then .error (.returned "invalid number of channels")
  else if bitsPerSample = 0 ∨ bitsPerSample > 32 then
    .error (.returned "invalid bits per sample")
  else .ok ⟨sampleRate, channels, bitsPerSample, 0, 4096⟩

/-- The three "length" bytes that `WriteStreamInfo` actually emits.  The Go
source is

  length := make([]byte, 3)
  binary.BigEndian.PutUint32(append([]byte{0}, length...)[:4], 34)
  e.w.Write(length[1:])

The literal `[]byte{0}` has capacity 1, so `append` allocates a fresh
backing array; `PutUint32` stores 34 into that fresh array and `length`
itself is never modified and stays `[0, 0, 0]`.  The write of `length[1:]`
therefore emits the two bytes `[0x00, 0x00]` - not three bytes and not the
value 34. -/
def streamInfoLengthBytes : List Nat := (List.replicate 3 0).drop 1

/-- The 34-byte STREAMINFO payload assembled by `WriteStreamInfo`.  Byte
conversions (`byte(x)`) reduce modulo 256; `channels` and `bitsPerSample`
are at least 1 by `NewEncoder`, so the Go `uint8` subtractions `e.channels-1`
and `e.bitsPerSample-1` never wrap and coincide with `Nat` subtraction. -/
def streamInfoBlock (e : Encoder) : List Nat :=
  [(e.blockSize >>> 8) % 256, e.blockSize % 256,
   (e.blockSize >>> 8) % 256, e.blockSize % 256,
   0, 0, 0,
   0, 0, 0,
   (e.sampleRate >>> 12) % 256,
   (e.sampleRate >>> 4) % 256,
   ((e.sampleRate &&& 0x0F) <<< 4) % 256 ||| ((e.channels - 1) <<< 1) % 256
     ||| ((e.bitsPerSample - 1) >>> 4),
   (((e.bitsPerSample - 1) &&& 0x0F) <<< 4) % 256 ||| (e.totalSamples >>> 32) % 256,
   (e.totalSamples >>> 24) % 256, (e.totalSamples >>> 16) % 256,
   (e.totalSamples >>> 8) % 256, e.totalSamples % 256,
   0, 0, 0, 0, 0, 0, 0, 0, 0, 0, 0, 0, 0, 0, 0, 0]

/-- The bytes emitted by `Encoder.WriteStreamInfo`: the `fLaC` magic, the
metadata-block header byte `0x80`, the (buggy) length bytes, and the
34-byte STREAMINFO payload. -/
def writeStreamInfo (e : Encoder) : List Nat :=
  [0x66, 0x4C, 0x61, 0x43] ++ [0x80] ++ streamInfoLengthBytes ++ streamInfoBlock e

/-- The `fixedPredict` function.  Go `int32` arithmetic wraps; consecutive
wrapping operations compose to a single reduction `i32` of the exact
integer expression. -/
def fixedPredict (samples : List Int) (pos order : Nat) : Int :=
  if order = 0 then 0
  else if order = 1 then samples.getD (pos - 1) 0
  else if order = 2 then
    i32 (2 * samples.getD (pos - 1) 0 - samples.getD (pos - 2) 0)
  else if order = 3 then
    i32 (3 * samples.getD (pos - 1) 0 - 3 * samples.getD (pos - 2) 0
      + samples.getD (pos - 3) 0)
  else if order = 4 then
    i32 (4 * samples.getD (pos - 1) 0 - 6 * samples.getD (pos - 2) 0
      + 4 * samples.getD (pos - 3) 0 - samples.getD (pos - 4) 0)
  else 0

/-- The residual loop of `encodeSubframe`:
`residuals[i-order] = samples[i] - fixedPredict(samples, i, order)` for
`i ∈ [order, len)`, in `int32` arithmetic.  All indices are in range at
every call site, so plain `getD` indexing is used. -/
def computeResiduals (samples : List Int) (order : Nat) : List Int :=
  (List.range (samples.length - order)).map (fun j =>
    i32 (samples.getD (j + order) 0 - fixedPredict samples (j + order) order))

/-- The zigzag value computed by `encodeRice`: `uint32(2*value)` for
non-negative values and `uint32(-2*value - 1)` for negative ones, where the
multiplication is Go `int32` arithmetic and the conversion reinterprets
modulo `2^32`. -/
def riceUval (value : Int) : Nat :=
  ((if value < 0 then i32 (-2 * value - 1) else i32 (2 * value)) % (2 ^ 32 : Int)).toNat

/-- The value of the Go `uint32` expression `(1 << param) - 1`. -/
def goMask32 (n : Nat) : Nat := ((1 <<< n) % 2 ^ 32 + 2 ^ 32 - 1) % 2 ^ 32

/-- The `for i := uint32(0); i < quotient; i++ { buf.writeBits(0, 1) }`
loop of `encodeRice`. -/
def unaryZeros (buf : BitWriter) : Nat → BitWriter
  | 0 => buf
  | q + 1 => unaryZeros (buf.writeBits 0 1) q

/-- The `encodeRice` function: zigzag, split by the Rice parameter, emit
the quotient in unary and the remainder in binary. -/
def encodeRice (buf : BitWriter) (value : Int) (param : Nat) : BitWriter :=
  let uval := riceUval value
  let quotient := uval >>> param
  let remainder := uval &&& goMask32 param
  ((unaryZeros buf quotient).writeBits 1 1).writeBits remainder param

/-- The absolute value accumulated by `findOptimalRiceParameter`: for a
negative residual the source computes `uint64(-r)` where `-r` is `int32`
negation (which wraps at `r = -2^31`) followed by a sign-extending
conversion to `uint64` (reinterpretation modulo `2^64`). -/
def riceAbs (r : Int) : Nat :=
  ((if r < 0 then i32 (-r) else r) % (2 ^ 64 : Int)).toNat

/-- The `findOptimalRiceParameter` function.  The running sum is a Go
`uint64` and reduces modulo `2^64` at every addition.  The source computes
`mean := float64(sum)/float64(len)` and `uint8(math.Log2(mean))`; these
float64 operations are idealised here as exact real arithmetic, under
which `mean < 1` is `sum < len` and `uint8(Log2(mean))` (truncation toward
zero of a non-negative value) is `Nat.log 2 (sum / len)`, the floor of the
real base-2 logarithm of the rational mean.  This is an idealisation, not
a bit-exact model: float64 rounding (the conversion of a `sum` above
`2^53`, the division, and `math.Log2`, whose accuracy Go leaves
unspecified outside exact powers of two) can shift the selected parameter
by one near a power-of-two mean, so no theorem below relies on the exact
value this function returns - only on its range `0..14`
(`findOptimalRiceParameter_le`) and on the surrounding bit layout.  On
every concrete input evaluated in this file the float64 arithmetic is
exact and the idealisation agrees with the program. -/
def findOptimalRiceParameter (residuals : List Int) : Nat :=
  if residuals.length = 0 then 0
  else
    let sum := residuals.foldl (fun acc r => (acc + riceAbs r) % 2 ^ 64) 0
    if sum < residuals.length then 0
    else
      let param := Nat.log 2 (sum / residuals.length)
      if param > 14 then 14 else param

/-- The `encodeResidual` method: coding method `0b00`, partition order 0,
the 4-bit Rice parameter, then each residual Rice-coded.  The Go function
always returns a nil error, so it is modelled as total. -/
def encodeResidual (e : Encoder) (buf : BitWriter) (residuals : List Int) : BitWriter :=
  let buf := buf.writeBits 0 2
  let buf := buf.writeBits 0 4
  let riceParam := findOptimalRiceParameter residuals
  let buf := buf.writeBits riceParam 4
  residuals.foldl (fun b r => encodeRice b r riceParam) buf

/-- The `encodeSubframe` method: fixed-predictor subframe of order 2.  The
warm-up loop indexes `samples[i]` for `i < order`, which panics when the
block holds fewer than 2 samples. -/
def encodeSubframe (e : Encoder) (buf : BitWriter) (samples : List Int) :
    Except GoError BitWriter := do
  let order := 2
  let buf := buf.writeBits 0 1
  let buf := buf.writeBits (0x08 ||| order) 6
  let buf := buf.writeBits 0 1
  let buf ← (List.range order).foldlM (fun (b : BitWriter) i => do
    let s ← goIndex samples i
    pure (b.writeBitsSigned s e.bitsPerSample)) buf
  let residuals := computeResiduals samples order
  pure (encodeResidual e buf residuals)

/-- The fixed 32 bits written at the start of every frame header (sync
code, reserved bit, blocking strategy, block-size code, sample-rate code,
channel assignment, sample-size code, reserved bit). -/
def frameHeaderFixed (e : Encoder) (blockSize : Nat) : BitWriter :=
  (((((((newBitWriter.writeBits 0x3FFE 14).writeBits 0 1).writeBits 0
    1).writeBits (getBlockSizeCode blockSize) 4).writeBits
    (getSampleRateCode e.sampleRate) 4).writeBits (e.channels - 1)
    4).writeBits (getSampleSizeCode e.bitsPerSample) 3).writeBits 0 1

/-- The complete frame header of `EncodeFrame` before the CRC-8 byte: the
fixed 32 bits, the UTF-8 frame number, and the optional trailing block-size
and sample-rate fields. -/
def frameHeader (e : Encoder) (blockSize frameNumber : Nat) : BitWriter :=
  let buf := (frameHeaderFixed e blockSize).writeUTF8 frameNumber
  let bsCode := getBlockSizeCode blockSize
  let buf :=
    if bsCode = 0x06 then buf.writeBits (blockSize - 1) 8
    else if bsCode = 0x07 then buf.writeBits (blockSize - 1) 16
    else buf
  let srCode := getSampleRateCode e.sampleRate
  if srCode = 0x0C then buf.writeBits (e.sampleRate / 1000) 8
  else if srCode = 0x0D then buf.writeBits e.sampleRate 16
  else if srCode = 0x0E then buf.writeBits (e.sampleRate / 10) 16
  else buf

/-- The `for ch := 0; ch < int(e.channels); ch++` subframe loop of
`EncodeFrame`. -/
def subframesLoop (e : Encoder) (buf : BitWriter) (samples : List (List Int)) :
    Except GoError BitWriter :=
  (List.range e.channels).foldlM (fun b ch => do
    let s ← goIndex samples ch
    encodeSubframe e b s) buf

/-- The `Encoder.EncodeFrame` method.  It returns the bytes this frame
appends to the output writer. -/
def EncodeFrame (e : Encoder) (samples : List (List Int)) (frameNumber : Nat) :
    Except GoError (List Nat) :=
  if samples.length ≠ e.channels then
    .error (.returned "sample count mismatch with channels")
  else
    match samples with
    | [] => .error (.runtime "index out of range")
    | s0 :: rest =>
      if rest.any (fun s => s.length ≠ s0.length) then
        .error (.returned "all channels must have same block size")
      else do
        let buf := frameHeader e s0.length frameNumber
        let crc8 := calculateCRC8 buf.bytes
        let buf := buf.writeBits crc8 8
        let buf ← subframesLoop e buf (s0 :: rest)
        let buf := buf.alignToByte
        let crc16 := calculateCRC16 buf.bytes
        let buf := buf.writeBits crc16 16
        pure buf.bytes

/-- One pass of the channel-extraction loop of `Encoder.Encode` over a list
of channel indices: `blockSamples[ch] = samples[ch][start:end]`. -/
def extractLoop (samples : List (List Int)) (start end_ : Nat) :
    List Nat → Except GoError (List (List Int))
  | [] => .ok []
  | ch :: rest => do
    let s ← goIndex samples ch
    let sl ← goSlice s start end_
    let others ← extractLoop samples start end_ rest
    pure (sl :: others)

/-- The per-block channel extraction of `Encoder.Encode`:
`blockSamples[ch] = samples[ch][start:end]` for `ch = 0 .. channels-1`. -/
def extractBlock (samples : List (List Int)) (channels start end_ : Nat) :
    Except GoError (List (List Int)) :=
  extractLoop samples start end_ (List.range channels)

/-- The `for blockNum := 0; blockNum < totalBlocks; blockNum++` loop of
`Encoder.Encode`, parameterised by the first block number and the number of
remaining blocks; returns the concatenated frame bytes. -/
def encodeBlocks (e : Encoder) (samples : List (List Int)) (len0 : Nat) :
    Nat → Nat → Except GoError (List Nat)
  | _, 0 => .ok []
  | blockNum, r + 1 => do
    let start := blockNum * e.blockSize
    let end_ := if start + e.blockSize > len0 then len0 else start + e.blockSize
    let block ← extractBlock samples e.channels start end_
    let frame ← EncodeFrame e block blockNum
    let rest ← encodeBlocks e samples len0 (blockNum + 1) r
    pure (frame ++ rest)

/-- The `Encoder.Encode` method: write the stream header and STREAMINFO,
then encode `ceil(len(samples[0]) / blockSize)` frames.  `len(samples[0])`
panics when `samples` is empty.  On error, Go has already written a prefix
of the output to the sink; the model reports just the error. -/
def Encode (e : Encoder) (samples : List (List Int)) : Except GoError (List Nat) :=
  match samples with
  | [] => .error (.runtime "index out of range")
  | s0 :: _ => do
    let totalBlocks := (s0.length + e.blockSize - 1) / e.blockSize
    let body ← encodeBlocks e samples s0.length 0 totalBlocks
    pure (writeStreamInfo e ++ body)

/-- Zigzag encoding as the specification words it: `u = 2r` if `r ≥ 0`,
else `u = -2r - 1`.  Stated from the spec, for comparison with the
source-derived `riceUval`. -/
def zigzagSpec (r : Int) : Nat :=
  if 0 ≤ r then (2 * r).toNat else (-2 * r - 1).toNat

/-! Basic facts about the bit-list representation. -/

theorem natToBits_length (n v : Nat) : (natToBits n v).length = n := by
  induction n generalizing v with
  | zero => rfl
  | succ n ih => simp [natToBits, ih]

theorem natToBits_split (m n v : Nat) :
    natToBits (m + n) v = natToBits m (v / 2 ^ n) ++ natToBits n v := by
  induction n generalizing v with
  | zero => simp [natToBits]
  | succ n ih =>
    have h1 : m + (n + 1) = (m + n) + 1 := by omega
    rw [h1]
    show natToBits ((m + n) + 1) v = _
    rw [natToBits, ih, natToBits]
    have h2 : v / 2 / 2 ^ n = v / 2 ^ (n + 1) := by
      rw [Nat.div_div_eq_div_mul, ← Nat.pow_succ']
    rw [h2, List.append_assoc]

theorem natToBits_mod (n v : Nat) : natToBits n (v % 2 ^ n) = natToBits n v := by
  induction n generalizing v with
  | zero => rfl
  | succ n ih =>
    rw [natToBits, natToBits]
    have h1 : v % 2 ^ (n + 1) / 2 = v / 2 % 2 ^ n := by
      rw [Nat.pow_succ']
      exact Nat.mod_mul_right_div_self v 2 (2 ^ n)
    have h2 : v % 2 ^ (n + 1) % 2 = v % 2 := by
      apply Nat.mod_mod_of_dvd
      exact dvd_pow_self 2 (Nat.succ_ne_zero n)
    rw [h1, h2, ih]

theorem bytesBits_append (a b : List Nat) :
    bytesBits (a ++ b) = bytesBits a ++ bytesBits b := by
  induction a with
  | nil => rfl
  | cons x xs ih => simp [bytesBits, ih]

theorem shiftLeft_or_eq_add (a b n : Nat) (hb : b < 2 ^ n) :
    (a <<< n) ||| b = a * 2 ^ n + b := by
  rw [Nat.shiftLeft_eq]
  apply Nat.eq_of_testBit_eq
  intro i
  rw [Nat.testBit_lor]
  have hmul : (a * 2 ^ n).testBit i = if i < n then false else a.testBit (i - n) := by
    have := Nat.testBit_mul_pow_two_add a (Nat.two_pow_pos n) i
    simpa [Nat.mul_comm] using this
  have hadd : (a * 2 ^ n + b).testBit i
      = if i < n then b.testBit i else a.testBit (i - n) := by
    have := Nat.testBit_mul_pow_two_add a hb i
    simpa [Nat.mul_comm] using this
  rw [hmul, hadd]
  by_cases h : i < n
  · simp [h]
  · have hfalse : b.testBit i = false := by
      apply Nat.testBit_lt_two_pow
      exact lt_of_lt_of_le hb (Nat.pow_le_pow_right (by norm_num) (by omega))
    simp [h, hfalse]

/-! Behaviour of the flush loop and of `writeBits`. -/

theorem goMask64_eq (n : Nat) (h : n ≤ 64) : goMask64 n = 2 ^ n - 1 := by
  unfold goMask64
  rw [Nat.shiftLeft_eq, Nat.one_mul]
  rcases Nat.lt_or_ge n 64 with h64 | h64
  · have hlt : (2 : Nat) ^ n < 2 ^ 64 := Nat.pow_lt_pow_right (by norm_num) h64
    rw [Nat.mod_eq_of_lt hlt]
    have h1 : (2 : Nat) ^ n + 2 ^ 64 - 1 = (2 ^ n - 1) + 2 ^ 64 := by
      have : (1 : Nat) ≤ 2 ^ n := Nat.one_le_two_pow
      omega
    rw [h1, Nat.add_mod_right, Nat.mod_eq_of_lt (by omega)]
  · have hn : n = 64 := by omega
    subst hn
    norm_num

theorem flushLoop_base (cur bc : Nat) (buf : List Nat) (h : bc < 8) :
    flushLoop cur bc buf = ⟨buf, cur, bc⟩ := by
  match bc, h with
  | 0, _ => rw [flushLoop]; intro m hm; omega
  | 1, _ => rw [flushLoop]; intro m hm; omega
  | 2, _ => rw [flushLoop]; intro m hm; omega
  | 3, _ => rw [flushLoop]; intro m hm; omega
  | 4, _ => rw [flushLoop]; intro m hm; omega
  | 5, _ => rw [flushLoop]; intro m hm; omega
  | 6, _ => rw [flushLoop]; intro m hm; omega
  | 7, _ => rw [flushLoop]; intro m hm; omega

theorem flushLoop_spec (bc : Nat) (hbc : bc ≤ 71) : ∀ cur buf,
    (flushLoop cur bc buf).bitstream = bytesBits buf ++ natToBits bc cur
    ∧ (flushLoop cur bc buf).bitCount = bc % 8
    ∧ (cur < 2 ^ bc →
        (flushLoop cur bc buf).current < 2 ^ (flushLoop cur bc buf).bitCount)
    ∧ ∃ s, (flushLoop cur bc buf).buf = buf ++ s := by
  induction bc using Nat.strong_induction_on with
  | _ bc ih =>
    intro cur buf
    by_cases h8 : bc < 8
    · rw [flushLoop_base cur bc buf h8]
      refine ⟨rfl, (Nat.mod_eq_of_lt h8).symm, fun h => h, [], by simp⟩
    · obtain ⟨k, rfl⟩ : ∃ k, bc = k + 8 := ⟨bc - 8, by omega⟩
      rw [flushLoop]
      have hk : k ≤ 71 := by omega
      have hmask : goMask64 k = 2 ^ k - 1 := goMask64_eq k (by omega)
      have hcur : cur &&& goMask64 k = cur % 2 ^ k := by
        rw [hmask, Nat.and_pow_two_sub_one_eq_mod]
      have hb : (cur >>> k) % 256 = cur / 2 ^ k % 2 ^ 8 := by
        rw [Nat.shiftRight_eq_div_pow]; norm_num
      obtain ⟨ih1, ih2, ih3, s, ih4⟩ :=
        ih k (by omega) hk (cur &&& goMask64 k) (buf ++ [(cur >>> k) % 256])
      refine ⟨?_, ?_, ?_, ?_⟩
      · rw [ih1, hcur, natToBits_mod, bytesBits_append]
        have hsplit : natToBits (k + 8) cur
            = natToBits 8 (cur / 2 ^ k) ++ natToBits k cur := by
          rw [Nat.add_comm k 8, natToBits_split]
        rw [hsplit]
        have hbyte : natToBits 8 ((cur >>> k) % 256) = natToBits 8 (cur / 2 ^ k) := by
          rw [hb]
          exact natToBits_mod 8 (cur / 2 ^ k)
        simp [bytesBits, hbyte]
      · rw [ih2]; omega
      · intro _
        apply ih3
        rw [hcur]
        exact Nat.mod_lt _ (Nat.two_pow_pos k)
      · exact ⟨(cur >>> k) % 256 :: s, by simpa using ih4⟩

theorem writeBits_current_lt (bw : BitWriter) (v n : Nat) (hwf : bw.wf) (hn : n ≤ 64) :
    (bw.current <<< n) % 2 ^ 64 ||| (v &&& goMask64 n) < 2 ^ (bw.bitCount + n) := by
  obtain ⟨hcur, hbc⟩ := hwf
  have hv : v &&& goMask64 n < 2 ^ n := by
    rw [goMask64_eq n hn, Nat.and_pow_two_sub_one_eq_mod]
    exact Nat.mod_lt _ (Nat.two_pow_pos n)
  rcases le_or_lt (bw.bitCount + n) 64 with h64 | h64
  · have hshift : bw.current <<< n < 2 ^ (bw.bitCount + n) := by
      rw [Nat.shiftLeft_eq, Nat.pow_add]
      exact Nat.mul_lt_mul_of_pos_right hcur (Nat.two_pow_pos n)
    have hmod : (bw.current <<< n) % 2 ^ 64 = bw.current <<< n :=
      Nat.mod_eq_of_lt (lt_of_lt_of_le hshift (Nat.pow_le_pow_right (by norm_num) h64))
    rw [hmod]
    exact Nat.or_lt_two_pow hshift
      (lt_of_lt_of_le hv (Nat.pow_le_pow_right (by norm_num) (by omega)))
  · have h1 : (bw.current <<< n) % 2 ^ 64 < 2 ^ 64 := Nat.mod_lt _ (by norm_num)
    have h2 : v &&& goMask64 n < 2 ^ 64 :=
      lt_of_lt_of_le hv (Nat.pow_le_pow_right (by norm_num) hn)
    exact lt_of_lt_of_le (Nat.or_lt_two_pow h1 h2)
      (Nat.pow_le_pow_right (by norm_num) (by omega))

theorem writeBits_stream (bw : BitWriter) (v n : Nat) (hwf : bw.wf)
    (hn : bw.bitCount + n ≤ 64) :
    (bw.writeBits v n).bitstream = bw.bitstream ++ natToBits n v := by
  obtain ⟨hcur, hbc⟩ := hwf
  unfold BitWriter.writeBits
  by_cases h0 : n = 0
  · subst h0; simp [natToBits]
  · rw [if_neg h0]
    have hn64 : n ≤ 64 := by omega
    have hmask : v &&& goMask64 n = v % 2 ^ n := by
      rw [goMask64_eq n hn64, Nat.and_pow_two_sub_one_eq_mod]
    have hshift : bw.current <<< n < 2 ^ 64 := by
      rw [Nat.shiftLeft_eq]
      calc bw.current * 2 ^ n < 2 ^ bw.bitCount * 2 ^ n :=
            Nat.mul_lt_mul_of_pos_right hcur (Nat.two_pow_pos n)
        _ = 2 ^ (bw.bitCount + n) := (Nat.pow_add 2 _ _).symm
        _ ≤ 2 ^ 64 := Nat.pow_le_pow_right (by norm_num) hn
    have hmod : (bw.current <<< n) % 2 ^ 64 = bw.current <<< n := Nat.mod_eq_of_lt hshift
    have hc : (bw.current <<< n) % 2 ^ 64 ||| (v &&& goMask64 n)
        = bw.current * 2 ^ n + v % 2 ^ n := by
      rw [hmod, hmask]
      exact shiftLeft_or_eq_add _ _ n (Nat.mod_lt _ (Nat.two_pow_pos n))
    rw [hc]
    obtain ⟨h1, _, _, _⟩ := flushLoop_spec (bw.bitCount + n) (by omega)
      (bw.current * 2 ^ n + v % 2 ^ n) bw.buf
    rw [h1]
    have hsplit : natToBits (bw.bitCount + n) (bw.current * 2 ^ n + v % 2 ^ n)
        = natToBits bw.bitCount bw.current ++ natToBits n v := by
      rw [natToBits_split]
      have hdiv : (bw.current * 2 ^ n + v % 2 ^ n) / 2 ^ n = bw.current := by
        rw [Nat.add_comm, Nat.add_mul_div_right _ _ (Nat.two_pow_pos n),
          Nat.div_eq_of_lt (Nat.mod_lt v (Nat.two_pow_pos n)), Nat.zero_add]
      have hmod2 : natToBits n (bw.current * 2 ^ n + v % 2 ^ n) = natToBits n v := by
        rw [← natToBits_mod]
        have heq : (bw.current * 2 ^ n + v % 2 ^ n) % 2 ^ n = v % 2 ^ n := by
          rw [Nat.mul_comm bw.current (2 ^ n), Nat.mul_add_mod,
            Nat.mod_mod_of_dvd v dvd_rfl]
        rw [heq, natToBits_mod]
      rw [hdiv, hmod2]
    rw [hsplit, BitWriter.bitstream, List.append_assoc]

theorem writeBits_wf (bw : BitWriter) (v n : Nat) (hwf : bw.wf) (hn : n ≤ 64) :
    (bw.writeBits v n).wf := by
  unfold BitWriter.writeBits
  by_cases h0 : n = 0
  · subst h0; simpa using hwf
  · rw [if_neg h0]
    have hbc71 : bw.bitCount + n ≤ 71 := by
      obtain ⟨_, hbc⟩ := hwf; omega
    obtain ⟨_, h2, h3, _⟩ := flushLoop_spec (bw.bitCount + n) hbc71
      ((bw.current <<< n) % 2 ^ 64 ||| (v &&& goMask64 n)) bw.buf
    constructor
    · exact h3 (writeBits_current_lt bw v n hwf hn)
    · rw [h2]; omega

theorem writeBits_bitCount (bw : BitWriter) (v n : Nat) (hwf : bw.wf) (hn : n ≤ 64) :
    (bw.writeBits v n).bitCount = (bw.bitCount + n) % 8 := by
  obtain ⟨hcur, hbc⟩ := hwf
  unfold BitWriter.writeBits
  by_cases h0 : n = 0
  · subst h0; simp [Nat.mod_eq_of_lt hbc]
  · rw [if_neg h0]
    obtain ⟨_, h2, _, _⟩ := flushLoop_spec (bw.bitCount + n) (by omega)
      ((bw.current <<< n) % 2 ^ 64 ||| (v &&& goMask64 n)) bw.buf
    exact h2

theorem writeBits_prefix (bw : BitWriter) (v n : Nat) (hwf : bw.wf) (hn : n ≤ 64) :
    ∃ s, (bw.writeBits v n).buf = bw.buf ++ s := by
  obtain ⟨hcur, hbc⟩ := hwf
  unfold BitWriter.writeBits
  by_cases h0 : n = 0
  · subst h0; exact ⟨[], by simp⟩
  · rw [if_neg h0]
    obtain ⟨_, _, _, h4⟩ := flushLoop_spec (bw.bitCount + n) (by omega)
      ((bw.current <<< n) % 2 ^ 64 ||| (v &&& goMask64 n)) bw.buf
    exact h4

theorem newBitWriter_wf : newBitWriter.wf := by
  constructor <;> norm_num [newBitWriter]

theorem wf_current_eq_zero (bw : BitWriter) (hwf : bw.wf) (h0 : bw.bitCount = 0) :
    bw.current = 0 := by
  obtain ⟨hcur, _⟩ := hwf
  rw [h0] at hcur
  simpa using hcur

/-- On a byte-aligned well-formed writer, an 8-bit write appends exactly one
byte (the low 8 bits of the value) and stays byte-aligned. -/
theorem writeBits_byte (bw : BitWriter) (v : Nat) (hwf : bw.wf) (h0 : bw.bitCount = 0) :
    bw.writeBits v 8 = ⟨bw.buf ++ [v % 256], 0, 0⟩ := by
  have hc0 : bw.current = 0 := wf_current_eq_zero bw hwf h0
  unfold BitWriter.writeBits
  rw [if_neg (by norm_num), hc0, h0]
  have e1 : (0 <<< 8) % 2 ^ 64 ||| v &&& goMask64 8 = v % 256 := by
    rw [Nat.zero_shiftLeft, Nat.zero_mod, Nat.zero_or, goMask64_eq 8 (by norm_num)]
    have : v &&& (2 ^ 8 - 1) = v % 2 ^ 8 := Nat.and_pow_two_sub_one_eq_mod v 8
    simpa using this
  rw [e1]
  show flushLoop (v % 256) (0 + 8) bw.buf = _
  rw [flushLoop]
  have e2 : v % 256 &&& goMask64 0 = 0 := by
    rw [goMask64_eq 0 (by norm_num)]
    simp
  have e3 : ((v % 256) >>> 0) % 256 = v % 256 := by
    rw [Nat.shiftRight_zero, Nat.mod_mod_of_dvd v dvd_rfl]
  rw [e2, e3, flushLoop_base _ _ _ (by norm_num)]

/-- On a byte-aligned well-formed writer, a 16-bit write appends exactly two
bytes, big-endian, and stays byte-aligned. -/
theorem writeBits_two_bytes (bw : BitWriter) (v : Nat) (hwf : bw.wf)
    (h0 : bw.bitCount = 0) :
    bw.writeBits v 16 = ⟨bw.buf ++ [(v >>> 8) % 256, v % 256], 0, 0⟩ := by
  have hc0 : bw.current = 0 := wf_current_eq_zero bw hwf h0
  unfold BitWriter.writeBits
  rw [if_neg (by norm_num), hc0, h0]
  have e1 : (0 <<< 16) % 2 ^ 64 ||| v &&& goMask64 16 = v % 2 ^ 16 := by
    rw [Nat.zero_shiftLeft, Nat.zero_mod, Nat.zero_or, goMask64_eq 16 (by norm_num)]
    exact Nat.and_pow_two_sub_one_eq_mod v 16
  rw [e1]
  show flushLoop (v % 2 ^ 16) (8 + 8) bw.buf = _
  rw [flushLoop]
  have e2 : v % 2 ^ 16 &&& goMask64 8 = v % 256 := by
    rw [goMask64_eq 8 (by norm_num), Nat.and_pow_two_sub_one_eq_mod]
    show v % 2 ^ 16 % 2 ^ 8 = v % 2 ^ 8
    exact Nat.mod_mod_of_dvd v (by norm_num)
  have e3 : ((v % 2 ^ 16) >>> 8) % 256 = (v >>> 8) % 256 := by
    rw [Nat.shiftRight_eq_div_pow, Nat.shiftRight_eq_div_pow]
    have hd : v % 2 ^ 16 / 2 ^ 8 = v / 2 ^ 8 % 2 ^ 8 := by
      rw [show (2:Nat) ^ 16 = 2 ^ 8 * 2 ^ 8 by norm_num]
      exact Nat.mod_mul_right_div_self v (2 ^ 8) (2 ^ 8)
    rw [hd]
    show v / 2 ^ 8 % 2 ^ 8 % 256 = v / 2 ^ 8 % 256
    exact Nat.mod_mod_of_dvd _ dvd_rfl
  rw [e2, e3, flushLoop]
  have e4 : v % 256 &&& goMask64 0 = 0 := by
    rw [goMask64_eq 0 (by norm_num)]
    simp
  have e5 : ((v % 256) >>> 0) % 256 = v % 256 := by
    rw [Nat.shiftRight_zero, Nat.mod_mod_of_dvd v dvd_rfl]
  rw [e4, e5, flushLoop_base _ _ _ (by norm_num)]
  simp

/-- Aligning a well-formed writer flushes everything to the byte buffer:
the result is byte-aligned, well formed, and only appends to the buffer. -/
theorem alignToByte_spec (bw : BitWriter) (hwf : bw.wf) :
    (bw.alignToByte).bitCount = 0 ∧ (bw.alignToByte).wf
    ∧ ∃ s, (bw.alignToByte).buf = bw.buf ++ s := by
  obtain ⟨hcur, hbc⟩ := hwf
  unfold BitWriter.alignToByte
  by_cases h : 0 < bw.bitCount
  · rw [if_pos h]
    have hn : 8 - bw.bitCount ≤ 64 := by omega
    refine ⟨?_, writeBits_wf bw 0 _ ⟨hcur, hbc⟩ hn, writeBits_prefix bw 0 _ ⟨hcur, hbc⟩ hn⟩
    rw [writeBits_bitCount bw 0 _ ⟨hcur, hbc⟩ hn]
    omega
  · rw [if_neg h]
    exact ⟨by omega, ⟨hcur, hbc⟩, [], by simp⟩

/-! Claim theorems. -/

/-- C1: claim "WriteStreamInfo emits, immediately after the 0x80
metadata-block header byte, exactly three length bytes 0x00 0x00 0x22
(big-endian 34), so that in every encoded stream the bytes at offsets 5..8
equal 0x00 0x00 0x22 and the 34-byte STREAMINFO payload begins at offset
8."  The code does not: `PutUint32` writes 34 into a fresh array allocated
by `append`, the `length` slice stays `[0,0,0]`, and `Write(length[1:])`
emits only the two bytes 0x00 0x00.  For a 44100 Hz / 1 channel / 16 bit
encoder the whole header is 41 bytes (not 42), the bytes at offsets 5..8
are 0x00 0x00 0x10 (the third already being the first STREAMINFO payload
byte), and they differ from the required 0x00 0x00 0x22. -/
theorem C1_streaminfo_length_bytes :
    (writeStreamInfo ⟨44100, 1, 16, 0, 4096⟩).length = 41
    ∧ ((writeStreamInfo ⟨44100, 1, 16, 0, 4096⟩).drop 5).take 3 = [0x00, 0x00, 0x10]
    ∧ ¬ (((writeStreamInfo ⟨44100, 1, 16, 0, 4096⟩).drop 5).take 3
        = [0x00, 0x00, 0x22]) := by
  decide

/-- C2: claim "for every input whose per-channel sample arrays differ in
length, Encode fails by returning a ShapeMismatch error (no panic, no
silent truncation); in particular samples[0] of length 100 and samples[1]
of length 99 returns ShapeMismatch."  The code does not: `Encode` slices
every channel to `samples[ch][start:end]` with `end` computed from channel
0 before any length check can run, so on the claimed input it panics with
a slice-bounds error instead of returning an error value, and when channel
1 is the longer one (lengths 99 and 100) it silently truncates and
succeeds. -/
theorem C2_shape_mismatch_is_panic :
    Encode ⟨44100, 2, 16, 0, 4096⟩ [List.replicate 100 0, List.replicate 99 0]
      = .error (.runtime "slice bounds out of range")
    ∧ (Encode ⟨44100, 2, 16, 0, 4096⟩
        [List.replicate 99 0, List.replicate 100 0]).isOk = true := by
  constructor
  · rfl
  · rfl

/-- C10: claim "for any input a block of which contains fewer than 2
samples - for example Encode called with total per-channel length N where
N mod 4096 = 1, making the final block a single sample - encodeSubframe's
order-2 warm-up loop indexes beyond the end of the block (it reads
samples[1] unconditionally), so the encoder panics with an
index-out-of-range instead of returning an error or a valid stream."
Confirmed: on any block of length 0 or 1 the warm-up loop panics, and an
`Encode` call whose input is a single sample (N = 1, N mod 4096 = 1)
propagates that panic. -/
theorem C10_short_block_panics :
    (∀ (e : Encoder) (buf : BitWriter) (s : List Int), s.length < 2 →
      encodeSubframe e buf s = .error (.runtime "index out of range"))
    ∧ Encode ⟨44100, 1, 16, 0, 4096⟩ [[7]]
      = .error (.runtime "index out of range") := by
  constructor
  · intro e buf s h
    match s, h with
    | [], _ => rfl
    | [x], _ => rfl
  · rfl

/-- Witness for C10 at a concrete short block. -/
theorem C10_short_block_panics_witness :
    encodeSubframe ⟨44100, 1, 16, 0, 4096⟩ newBitWriter []
      = .error (.runtime "index out of range") :=
  C10_short_block_panics.1 ⟨44100, 1, 16, 0, 4096⟩ newBitWriter [] (by decide)

/-- Specialisation of `writeBits_byte` to a literal byte-aligned writer,
convenient for chained rewriting. -/
theorem writeBits_byte_flat (buf : List Nat) (v : Nat) :
    (BitWriter.mk buf 0 0).writeBits v 8 = ⟨buf ++ [v % 256], 0, 0⟩ :=
  writeBits_byte _ v ⟨by norm_num, by norm_num⟩ rfl

/-- On a byte-aligned well-formed writer, `writeUTF8` appends whole bytes
and stays aligned; the number of appended bytes is 1 to 7 according to the
branch taken. -/
theorem writeUTF8_aligned (bw : BitWriter) (hwf : bw.wf) (h0 : bw.bitCount = 0)
    (v : Nat) :
    ∃ s : List Nat, bw.writeUTF8 v = ⟨bw.buf ++ s, 0, 0⟩
    ∧ s.length = (if v < 0x80 then 1 else if v < 0x800 then 2
        else if v < 0x10000 then 3 else if v < 0x200000 then 4
        else if v < 0x4000000 then 5 else if v < 0x80000000 then 6 else 7) := by
  unfold BitWriter.writeUTF8
  by_cases h1 : v < 0x80
  · rw [if_pos h1, writeBits_byte bw v hwf h0]
    exact ⟨[v % 256], rfl, by simp [h1]⟩
  · rw [if_neg h1]
    by_cases h2 : v < 0x800
    · rw [if_pos h2, writeBits_byte bw _ hwf h0]
      simp only [writeBits_byte_flat]
      refine ⟨[(0xC0 ||| (v >>> 6)) % 256, (0x80 ||| (v &&& 0x3F)) % 256], ?_, ?_⟩
      · simp
      · simp [h1, h2]
    · rw [if_neg h2]
      by_cases h3 : v < 0x10000
      · rw [if_pos h3, writeBits_byte bw _ hwf h0]
        simp only [writeBits_byte_flat]
        refine ⟨[(0xE0 ||| (v >>> 12)) % 256, (0x80 ||| ((v >>> 6) &&& 0x3F)) % 256,
          (0x80 ||| (v &&& 0x3F)) % 256], ?_, ?_⟩
        · simp
        · simp [h1, h2, h3]
      · rw [if_neg h3]
        by_cases h4 : v < 0x200000
        · rw [if_pos h4, writeBits_byte bw _ hwf h0]
          simp only [writeBits_byte_flat]
          refine ⟨[(0xF0 ||| (v >>> 18)) % 256, (0x80 ||| ((v >>> 12) &&& 0x3F)) % 256,
            (0x80 ||| ((v >>> 6) &&& 0x3F)) % 256, (0x80 ||| (v &&& 0x3F)) % 256],
            ?_, ?_⟩
          · simp
          · simp [h1, h2, h3, h4]
        · rw [if_neg h4]
          by_cases h5 : v < 0x4000000
          · rw [if_pos h5, writeBits_byte bw _ hwf h0]
            simp only [writeBits_byte_flat]
            refine ⟨[(0xF8 ||| (v >>> 24)) % 256, (0x80 ||| ((v >>> 18) &&& 0x3F)) % 256,
              (0x80 ||| ((v >>> 12) &&& 0x3F)) % 256,
              (0x80 ||| ((v >>> 6) &&& 0x3F)) % 256, (0x80 ||| (v &&& 0x3F)) % 256],
              ?_, ?_⟩
            · simp
            · simp [h1, h2, h3, h4, h5]
          · rw [if_neg h5]
            by_cases h6 : v < 0x80000000
            · rw [if_pos h6, writeBits_byte bw _ hwf h0]
              simp only [writeBits_byte_flat]
              refine ⟨[(0xFC ||| (v >>> 30)) % 256,
                (0x80 ||| ((v >>> 24) &&& 0x3F)) % 256,
                (0x80 ||| ((v >>> 18) &&& 0x3F)) % 256,
                (0x80 ||| ((v >>> 12) &&& 0x3F)) % 256,
                (0x80 ||| ((v >>> 6) &&& 0x3F)) % 256, (0x80 ||| (v &&& 0x3F)) % 256],
                ?_, ?_⟩
              · simp
              · simp [h1, h2, h3, h4, h5, h6]
            · rw [if_neg h6, writeBits_byte bw _ hwf h0]
              simp only [writeBits_byte_flat]
              refine ⟨[(0xFE ||| (v >>> 36)) % 256,
                (0x80 ||| ((v >>> 30) &&& 0x3F)) % 256,
                (0x80 ||| ((v >>> 24) &&& 0x3F)) % 256,
                (0x80 ||| ((v >>> 18) &&& 0x3F)) % 256,
                (0x80 ||| ((v >>> 12) &&& 0x3F)) % 256,
                (0x80 ||| ((v >>> 6) &&& 0x3F)) % 256, (0x80 ||| (v &&& 0x3F)) % 256],
                ?_, ?_⟩
              · simp
              · simp [h1, h2, h3, h4, h5, h6]

/-- C6 counterexample: the claim says `write_utf8(0x3FFF)` emits a byte
sequence whose first two bytes are 0xEF 0xBF; the code (like standard
UTF-8 for code point 0x3FFF) emits 0xE3 0xBF 0xBF, whose first two bytes
are 0xE3 0xBF. -/
theorem C6_utf8_3fff_cex :
    ¬ (((newBitWriter.writeUTF8 0x3FFF).buf).take 2 = [0xEF, 0xBF]) := by
  decide

/-- C6 (amended): on a byte-aligned writer, writeUTF8 emits the single
byte 0x00 for value 0, the single byte 0x7F for value 0x7F, the two bytes
0xC2 0x80 for value 0x80, and for value 0x3FFF the three bytes 0xE3 0xBF
0xBF (first two bytes 0xE3 0xBF, not 0xEF 0xBF); byte widths are
1/2/3/4/5/6/7 for the value ranges below 0x80 / 0x800 / 0x10000 /
0x200000 / 0x4000000 / 0x80000000 / 0x1000000000. -/
theorem C6_utf8_encoding (bw : BitWriter) (hwf : bw.wf) (h0 : bw.bitCount = 0) :
    (bw.writeUTF8 0).buf = bw.buf ++ [0x00]
    ∧ (bw.writeUTF8 0x7F).buf = bw.buf ++ [0x7F]
    ∧ (bw.writeUTF8 0x80).buf = bw.buf ++ [0xC2, 0x80]
    ∧ (bw.writeUTF8 0x3FFF).buf = bw.buf ++ [0xE3, 0xBF, 0xBF]
    ∧ (∀ v, v < 0x80 → (bw.writeUTF8 v).buf.length = bw.buf.length + 1)
    ∧ (∀ v, 0x80 ≤ v → v < 0x800 → (bw.writeUTF8 v).buf.length = bw.buf.length + 2)
    ∧ (∀ v, 0x800 ≤ v → v < 0x10000 → (bw.writeUTF8 v).buf.length = bw.buf.length + 3)
    ∧ (∀ v, 0x10000 ≤ v → v < 0x200000 →
        (bw.writeUTF8 v).buf.length = bw.buf.length + 4)
    ∧ (∀ v, 0x200000 ≤ v → v < 0x4000000 →
        (bw.writeUTF8 v).buf.length = bw.buf.length + 5)
    ∧ (∀ v, 0x4000000 ≤ v → v < 0x80000000 →
        (bw.writeUTF8 v).buf.length = bw.buf.length + 6)
    ∧ (∀ v, 0x80000000 ≤ v → v < 0x1000000000 →
        (bw.writeUTF8 v).buf.length = bw.buf.length + 7) := by
  have hwidth : ∀ v : Nat, (bw.writeUTF8 v).buf.length
      = bw.buf.length + (if v < 0x80 then 1 else if v < 0x800 then 2
        else if v < 0x10000 then 3 else if v < 0x200000 then 4
        else if v < 0x4000000 then 5 else if v < 0x80000000 then 6 else 7) := by
    intro v
    obtain ⟨s, hs, hlen⟩ := writeUTF8_aligned bw hwf h0 v
    rw [hs]
    simp [hlen]
  refine ⟨?_, ?_, ?_, ?_, ?_, ?_, ?_, ?_, ?_, ?_, ?_⟩
  · rw [BitWriter.writeUTF8, if_pos (by norm_num), writeBits_byte bw 0 hwf h0]
  · rw [BitWriter.writeUTF8, if_pos (by norm_num), writeBits_byte bw 0x7F hwf h0]
  · rw [BitWriter.writeUTF8, if_neg (by norm_num), if_pos (by norm_num),
      writeBits_byte bw _ hwf h0]
    simp only [writeBits_byte_flat]
    simp
    all_goals decide
  · rw [BitWriter.writeUTF8, if_neg (by norm_num), if_neg (by norm_num),
      if_pos (by norm_num), writeBits_byte bw _ hwf h0]
    simp only [writeBits_byte_flat]
    simp
    all_goals decide
  · intro v hv; rw [hwidth v, if_pos hv]
  · intro v hv1 hv2; rw [hwidth v, if_neg (by omega), if_pos hv2]
  · intro v hv1 hv2
    rw [hwidth v, if_neg (by omega), if_neg (by omega), if_pos hv2]
  · intro v hv1 hv2
    rw [hwidth v, if_neg (by omega), if_neg (by omega), if_neg (by omega),
      if_pos hv2]
  · intro v hv1 hv2
    rw [hwidth v, if_neg (by omega), if_neg (by omega), if_neg (by omega),
      if_neg (by omega), if_pos hv2]
  · intro v hv1 hv2
    rw [hwidth v, if_neg (by omega), if_neg (by omega), if_neg (by omega),
      if_neg (by omega), if_neg (by omega), if_pos hv2]
  · intro v hv1 hv2
    rw [hwidth v, if_neg (by omega), if_neg (by omega), if_neg (by omega),
      if_neg (by omega), if_neg (by omega), if_neg (by omega)]

/-- Witness for C6 at the empty writer. -/
theorem C6_utf8_encoding_witness :
    (newBitWriter.writeUTF8 0).buf = newBitWriter.buf ++ [0x00]
    ∧ (newBitWriter.writeUTF8 0x3FFF).buf = newBitWriter.buf ++ [0xE3, 0xBF, 0xBF] :=
  ⟨(C6_utf8_encoding newBitWriter (by decide) rfl).1,
    (C6_utf8_encoding newBitWriter (by decide) rfl).2.2.2.1⟩

/-- C3 counterexample: the claim quantifies over every writer state and
every n up to 64, but with 7 bits already buffered a 64-bit write shifts
the accumulator completely out of the 64-bit register and the previously
written bits are lost: after writing 0x7F in 7 bits, writing 0 in 64 bits
yields 71 zero bits instead of the 7 one-bits followed by 64 zero bits. -/
theorem C3_writeBits_overflow_cex :
    ¬ ((BitWriter.writeBits (newBitWriter.writeBits 0x7F 7) 0 64).bitstream
      = (newBitWriter.writeBits 0x7F 7).bitstream ++ natToBits 64 0) := by
  decide

/-- C3 (amended): for every well-formed writer state whose buffered bit
count plus n stays within the 64-bit accumulator (bitCount + n ≤ 64, which
holds for every n ≤ 57 since at most 7 bits are ever buffered),
writeBits(value, n) appends exactly the low n bits of value MSB-first to
the bit stream, leaving every previously written bit unchanged and
preserving well-formedness; n = 0 is a no-op, and bits of value above
position n are ignored (`natToBits n value` only reads the low n bits). -/
theorem C3_writeBits_appends (bw : BitWriter) (v n : Nat) (hwf : bw.wf)
    (hn : bw.bitCount + n ≤ 64) :
    (bw.writeBits v n).bitstream = bw.bitstream ++ natToBits n v
    ∧ (bw.writeBits v n).wf
    ∧ bw.writeBits v 0 = bw
    ∧ natToBits n v = natToBits n (v % 2 ^ n) := by
  refine ⟨writeBits_stream bw v n hwf hn, writeBits_wf bw v n hwf (by omega), ?_, ?_⟩
  · simp [BitWriter.writeBits]
  · exact (natToBits_mod n v).symm

/-- Witness for C3 at a concrete writer and width. -/
theorem C3_writeBits_appends_witness :
    (newBitWriter.writeBits 0xAB 8).bitstream
      = newBitWriter.bitstream ++ natToBits 8 0xAB
    ∧ (newBitWriter.writeBits 0xAB 8).wf
    ∧ newBitWriter.writeBits 0xAB 0 = newBitWriter
    ∧ natToBits 8 0xAB = natToBits 8 (0xAB % 2 ^ 8) :=
  C3_writeBits_appends newBitWriter 0xAB 8 (by decide) (by decide)

/-! Rice coding. -/

theorem goMask32_eq (n : Nat) (h : n ≤ 32) : goMask32 n = 2 ^ n - 1 := by
  unfold goMask32
  rw [Nat.shiftLeft_eq, Nat.one_mul]
  rcases Nat.lt_or_ge n 32 with h32 | h32
  · have hlt : (2 : Nat) ^ n < 2 ^ 32 := Nat.pow_lt_pow_right (by norm_num) h32
    rw [Nat.mod_eq_of_lt hlt]
    have h1 : (2 : Nat) ^ n + 2 ^ 32 - 1 = (2 ^ n - 1) + 2 ^ 32 := by
      have : (1 : Nat) ≤ 2 ^ n := Nat.one_le_two_pow
      omega
    rw [h1, Nat.add_mod_right, Nat.mod_eq_of_lt (by omega)]
  · have hn : n = 32 := by omega
    subst hn
    norm_num

/-- Reinterpreting a wrapped `int32` value as `uint32` recovers the exact
value modulo `2^32`. -/
theorem i32_emod (x : Int) : i32 x % 2 ^ 32 = x % 2 ^ 32 := by
  unfold i32
  omega

/-- For residuals in the `int32` range, the zigzag value the code computes
(`int32` arithmetic reinterpreted as `uint32`) is exactly the zigzag value
of the specification. -/
theorem riceUval_eq (r : Int) (hlo : -(2 ^ 31) ≤ r) (hhi : r < 2 ^ 31) :
    riceUval r = zigzagSpec r := by
  unfold riceUval zigzagSpec
  by_cases h : r < 0
  · rw [if_pos h, if_neg (by omega), i32_emod]
    have h1 : (0 : Int) ≤ -2 * r - 1 := by omega
    have h2 : -2 * r - 1 < (2 : Int) ^ 32 := by omega
    rw [Int.emod_eq_of_lt h1 h2]
  · rw [if_neg h, if_pos (by omega), i32_emod]
    have h1 : (0 : Int) ≤ 2 * r := by omega
    have h2 : 2 * r < (2 : Int) ^ 32 := by omega
    rw [Int.emod_eq_of_lt h1 h2]

theorem unaryZeros_spec (q : Nat) : ∀ bw : BitWriter, bw.wf →
    (unaryZeros bw q).bitstream = bw.bitstream ++ List.replicate q false
    ∧ (unaryZeros bw q).wf := by
  induction q with
  | zero => intro bw hwf; exact ⟨by simp [unaryZeros], hwf⟩
  | succ q ih =>
    intro bw hwf
    have hn : bw.bitCount + 1 ≤ 64 := by
      obtain ⟨_, h⟩ := hwf; omega
    have h1 := writeBits_stream bw 0 1 hwf hn
    have h2 := writeBits_wf bw 0 1 hwf (by omega)
    obtain ⟨ih1, ih2⟩ := ih (bw.writeBits 0 1) h2
    refine ⟨?_, ih2⟩
    show (unaryZeros (bw.writeBits 0 1) q).bitstream = _
    rw [ih1, h1]
    simp [natToBits, List.replicate_succ]

/-- What one `encodeRice` call appends to the bit stream: the zigzag value
shifted right by the parameter in unary zeros, a one bit, then the low
`param` bits of the zigzag value. -/
theorem encodeRice_spec (bw : BitWriter) (r : Int) (p : Nat) (hwf : bw.wf)
    (hp : p ≤ 14) :
    (encodeRice bw r p).bitstream
      = bw.bitstream ++ (List.replicate (riceUval r >>> p) false ++ [true]
        ++ natToBits p (riceUval r))
    ∧ (encodeRice bw r p).wf := by
  unfold encodeRice
  obtain ⟨hu1, hu2⟩ := unaryZeros_spec (riceUval r >>> p) bw hwf
  have hb1 : (unaryZeros bw (riceUval r >>> p)).bitCount + 1 ≤ 64 := by
    obtain ⟨_, h⟩ := hu2; omega
  have h1 := writeBits_stream _ 1 1 hu2 hb1
  have h2 := writeBits_wf _ 1 1 hu2 (by omega)
  have hb2 : ((unaryZeros bw (riceUval r >>> p)).writeBits 1 1).bitCount + p ≤ 64 := by
    obtain ⟨_, h⟩ := h2; omega
  have h3 := writeBits_stream _ (riceUval r &&& goMask32 p) p h2 hb2
  have h4 := writeBits_wf _ (riceUval r &&& goMask32 p) p h2 (by omega)
  refine ⟨?_, h4⟩
  rw [h3, h1, hu1]
  have hmask : riceUval r &&& goMask32 p = riceUval r % 2 ^ p := by
    rw [goMask32_eq p (by omega), Nat.and_pow_two_sub_one_eq_mod]
  rw [hmask, natToBits_mod]
  simp [natToBits]

/-- C9: claim "for every signed residual r and parameter p with 0 ≤ p ≤ 14,
encodeRice emits the zigzag value u = 2r (for r ≥ 0) or u = -2r-1 (for
r < 0) as u >> p zero bits followed by a single one bit, then the low p
bits of u as a p-bit unsigned integer (omitted when p = 0); in particular
r=0,p=0 emits the bit 1, r=1,p=0 emits bits 001, and r=-1,p=0 emits bits
01."  Confirmed for residuals in the `int32` range (which is the type of
every residual in the program). -/
theorem C9_rice_encoding (bw : BitWriter) (r : Int) (p : Nat) (hwf : bw.wf)
    (hp : p ≤ 14) (hlo : -(2 ^ 31) ≤ r) (hhi : r < 2 ^ 31) :
    (encodeRice bw r p).bitstream
      = bw.bitstream ++ (List.replicate (zigzagSpec r >>> p) false ++ [true]
        ++ natToBits p (zigzagSpec r))
    ∧ (encodeRice newBitWriter 0 0).bitstream = [true]
    ∧ (encodeRice newBitWriter 1 0).bitstream = [false, false, true]
    ∧ (encodeRice newBitWriter (-1) 0).bitstream = [false, true] := by
  refine ⟨?_, by decide, by decide, by decide⟩
  have h := (encodeRice_spec bw r p hwf hp).1
  rw [riceUval_eq r hlo hhi] at h
  exact h

/-- Witness for C9 at a concrete writer, residual and parameter. -/
theorem C9_rice_encoding_witness :
    (encodeRice newBitWriter 3 2).bitstream
      = newBitWriter.bitstream ++ (List.replicate (zigzagSpec 3 >>> 2) false
        ++ [true] ++ natToBits 2 (zigzagSpec 3))
    ∧ (encodeRice newBitWriter 0 0).bitstream = [true]
    ∧ (encodeRice newBitWriter 1 0).bitstream = [false, false, true]
    ∧ (encodeRice newBitWriter (-1) 0).bitstream = [false, true] :=
  C9_rice_encoding newBitWriter 3 2 (by decide) (by decide) (by decide) (by decide)

/-! CRC range facts and frame-header alignment, used for the frame CRC
claim. -/

theorem crc8Step_lt (c : Nat) : crc8Step c < 256 := by
  unfold crc8Step
  split
  · have h : ((c <<< 1) % 256) ^^^ 0x07 < 2 ^ 8 :=
      Nat.xor_lt_two_pow (by omega) (by norm_num)
    omega
  · exact Nat.mod_lt _ (by norm_num)

theorem crc8Rounds_lt : ∀ (k c : Nat), c < 256 → crc8Rounds k c < 256 := by
  intro k
  induction k with
  | zero => intro c hc; exact hc
  | succ k ih => intro c _; exact ih _ (crc8Step_lt c)

theorem calculateCRC8_lt (data : List Nat) : calculateCRC8 data < 256 := by
  unfold calculateCRC8
  have h : ∀ (l : List Nat) (a : Nat), a < 256 →
      l.foldl (fun crc b => crc8Rounds 8 (crc ^^^ b)) a < 256 := by
    intro l
    induction l with
    | nil => intro a ha; exact ha
    | cons b t ih =>
      intro a _
      exact ih _ (by show crc8Rounds 8 _ < 256; exact crc8Rounds_lt 7 _ (crc8Step_lt _))
  exact h data 0 (by norm_num)

theorem crc16Step_lt (c : Nat) : crc16Step c < 65536 := by
  unfold crc16Step
  split
  · have h : ((c <<< 1) % 65536) ^^^ 0x8005 < 2 ^ 16 :=
      Nat.xor_lt_two_pow (by omega) (by norm_num)
    omega
  · exact Nat.mod_lt _ (by norm_num)

theorem crc16Rounds_lt : ∀ (k c : Nat), c < 65536 → crc16Rounds k c < 65536 := by
  intro k
  induction k with
  | zero => intro c hc; exact hc
  | succ k ih => intro c _; exact ih _ (crc16Step_lt c)

theorem calculateCRC16_lt (data : List Nat) : calculateCRC16 data < 65536 := by
  unfold calculateCRC16
  have h : ∀ (l : List Nat) (a : Nat), a < 65536 →
      l.foldl (fun crc b => crc16Rounds 8 (crc ^^^ (b <<< 8))) a < 65536 := by
    intro l
    induction l with
    | nil => intro a ha; exact ha
    | cons b t ih =>
      intro a _
      exact ih _
        (by show crc16Rounds 8 _ < 65536; exact crc16Rounds_lt 7 _ (crc16Step_lt _))
  exact h data 0 (by norm_num)

/-- The eight fixed frame-header fields total 14+1+1+4+4+4+3+1 = 32 bits,
so the writer is byte-aligned (and well formed) at the frame-number
field - whatever the field values are. -/
theorem frameHeaderFixed_aligned (e : Encoder) (bs : Nat) :
    (frameHeaderFixed e bs).bitCount = 0 ∧ (frameHeaderFixed e bs).wf := by
  unfold frameHeaderFixed
  have w0 : newBitWriter.wf := newBitWriter_wf
  have b0 : newBitWriter.bitCount = 0 := rfl
  have w1 := writeBits_wf newBitWriter 0x3FFE 14 w0 (by norm_num)
  have b1 := writeBits_bitCount newBitWriter 0x3FFE 14 w0 (by norm_num)
  rw [b0] at b1
  have w2 := writeBits_wf _ 0 1 w1 (by norm_num)
  have b2 := writeBits_bitCount _ 0 1 w1 (by norm_num)
  rw [b1] at b2
  have w3 := writeBits_wf _ 0 1 w2 (by norm_num)
  have b3 := writeBits_bitCount _ 0 1 w2 (by norm_num)
  rw [b2] at b3
  have w4 := writeBits_wf _ (getBlockSizeCode bs) 4 w3 (by norm_num)
  have b4 := writeBits_bitCount _ (getBlockSizeCode bs) 4 w3 (by norm_num)
  rw [b3] at b4
  have w5 := writeBits_wf _ (getSampleRateCode e.sampleRate) 4 w4 (by norm_num)
  have b5 := writeBits_bitCount _ (getSampleRateCode e.sampleRate) 4 w4 (by norm_num)
  rw [b4] at b5
  have w6 := writeBits_wf _ (e.channels - 1) 4 w5 (by norm_num)
  have b6 := writeBits_bitCount _ (e.channels - 1) 4 w5 (by norm_num)
  rw [b5] at b6
  have w7 := writeBits_wf _ (getSampleSizeCode e.bitsPerSample) 3 w6 (by norm_num)
  have b7 := writeBits_bitCount _ (getSampleSizeCode e.bitsPerSample) 3 w6 (by norm_num)
  rw [b6] at b7
  have w8 := writeBits_wf _ 0 1 w7 (by norm_num)
  have b8 := writeBits_bitCount _ 0 1 w7 (by norm_num)
  rw [b7] at b8
  exact ⟨by rw [b8], w8⟩

/-- The complete pre-CRC frame header is byte-aligned and well formed:
the UTF-8 frame number and the optional trailing fields are all whole
bytes written on an aligned writer. -/
theorem frameHeader_aligned (e : Encoder) (bs fn : Nat) :
    (frameHeader e bs fn).bitCount = 0 ∧ (frameHeader e bs fn).wf := by
  obtain ⟨hb, hw⟩ := frameHeaderFixed_aligned e bs
  obtain ⟨s, hs, _⟩ := writeUTF8_aligned (frameHeaderFixed e bs) hw hb fn
  simp only [frameHeader]
  rw [hs]
  have hw1 : (BitWriter.mk ((frameHeaderFixed e bs).buf ++ s) 0 0).wf :=
    ⟨by norm_num, by norm_num⟩
  have hstep : ∀ (b : BitWriter), b.wf → b.bitCount = 0 → ∀ v n, n = 8 ∨ n = 16 →
      (b.writeBits v n).bitCount = 0 ∧ (b.writeBits v n).wf := by
    intro b hbwf hb0 v n hn
    constructor
    · rw [writeBits_bitCount b v n hbwf (by omega), hb0]
      rcases hn with h | h <;> rw [h]
    · exact writeBits_wf b v n hbwf (by omega)
  set base := BitWriter.mk ((frameHeaderFixed e bs).buf ++ s) 0 0 with hbase
  have hbase0 : base.bitCount = 0 := rfl
  by_cases h6 : getBlockSizeCode bs = 0x06
  · rw [if_pos h6]
    obtain ⟨hb2, hw2⟩ := hstep base hw1 hbase0 (bs - 1) 8 (Or.inl rfl)
    by_cases hc : getSampleRateCode e.sampleRate = 0x0C
    · rw [if_pos hc]
      exact And.comm.mp (And.intro (hstep _ hw2 hb2 _ 8 (Or.inl rfl)).2
        (hstep _ hw2 hb2 _ 8 (Or.inl rfl)).1)
    · rw [if_neg hc]
      by_cases hd : getSampleRateCode e.sampleRate = 0x0D
      · rw [if_pos hd]
        exact ⟨(hstep _ hw2 hb2 _ 16 (Or.inr rfl)).1, (hstep _ hw2 hb2 _ 16 (Or.inr rfl)).2⟩
      · rw [if_neg hd]
        by_cases he : getSampleRateCode e.sampleRate = 0x0E
        · rw [if_pos he]
          exact ⟨(hstep _ hw2 hb2 _ 16 (Or.inr rfl)).1,
            (hstep _ hw2 hb2 _ 16 (Or.inr rfl)).2⟩
        · rw [if_neg he]
          exact ⟨hb2, hw2⟩
  · rw [if_neg h6]
    by_cases h7 : getBlockSizeCode bs = 0x07
    · rw [if_pos h7]
      obtain ⟨hb2, hw2⟩ := hstep base hw1 hbase0 (bs - 1) 16 (Or.inr rfl)
      by_cases hc : getSampleRateCode e.sampleRate = 0x0C
      · rw [if_pos hc]
        exact ⟨(hstep _ hw2 hb2 _ 8 (Or.inl rfl)).1, (hstep _ hw2 hb2 _ 8 (Or.inl rfl)).2⟩
      · rw [if_neg hc]
        by_cases hd : getSampleRateCode e.sampleRate = 0x0D
        · rw [if_pos hd]
          exact ⟨(hstep _ hw2 hb2 _ 16 (Or.inr rfl)).1,
            (hstep _ hw2 hb2 _ 16 (Or.inr rfl)).2⟩
        · rw [if_neg hd]
          by_cases he : getSampleRateCode e.sampleRate = 0x0E
          · rw [if_pos he]
            exact ⟨(hstep _ hw2 hb2 _ 16 (Or.inr rfl)).1,
              (hstep _ hw2 hb2 _ 16 (Or.inr rfl)).2⟩
          · rw [if_neg he]
            exact ⟨hb2, hw2⟩
    · rw [if_neg h7]
      by_cases hc : getSampleRateCode e.sampleRate = 0x0C
      · rw [if_pos hc]
        exact ⟨(hstep _ hw1 hbase0 _ 8 (Or.inl rfl)).1,
          (hstep _ hw1 hbase0 _ 8 (Or.inl rfl)).2⟩
      · rw [if_neg hc]
        by_cases hd : getSampleRateCode e.sampleRate = 0x0D
        · rw [if_pos hd]
          exact ⟨(hstep _ hw1 hbase0 _ 16 (Or.inr rfl)).1,
            (hstep _ hw1 hbase0 _ 16 (Or.inr rfl)).2⟩
        · rw [if_neg hd]
          by_cases he : getSampleRateCode e.sampleRate = 0x0E
          · rw [if_pos he]
            exact ⟨(hstep _ hw1 hbase0 _ 16 (Or.inr rfl)).1,
              (hstep _ hw1 hbase0 _ 16 (Or.inr rfl)).2⟩
          · rw [if_neg he]
            exact ⟨hbase0, hw1⟩

/-! Well-formedness and buffer monotonicity through the subframe coder. -/

theorem findOptimalRiceParameter_le (rs : List Int) : findOptimalRiceParameter rs ≤ 14 := by
  simp only [findOptimalRiceParameter]
  split
  · omega
  · split
    · omega
    · split <;> omega

theorem unaryZeros_prefix (q : Nat) : ∀ b : BitWriter, b.wf →
    ∃ s, (unaryZeros b q).buf = b.buf ++ s := by
  induction q with
  | zero => intro b _; exact ⟨[], by simp [unaryZeros]⟩
  | succ q ih =>
    intro b hb
    obtain ⟨s1, h1⟩ := writeBits_prefix b 0 1 hb (by norm_num)
    obtain ⟨s2, h2⟩ := ih (b.writeBits 0 1) (writeBits_wf b 0 1 hb (by norm_num))
    refine ⟨s1 ++ s2, ?_⟩
    show (unaryZeros (b.writeBits 0 1) q).buf = _
    rw [h2, h1, List.append_assoc]

theorem encodeRice_prefix (b : BitWriter) (r : Int) (p : Nat) (hwf : b.wf)
    (hp : p ≤ 14) : ∃ s, (encodeRice b r p).buf = b.buf ++ s := by
  unfold encodeRice
  obtain ⟨s1, h1⟩ := unaryZeros_prefix (riceUval r >>> p) b hwf
  have w1 := (unaryZeros_spec (riceUval r >>> p) b hwf).2
  obtain ⟨s2, h2⟩ := writeBits_prefix _ 1 1 w1 (by norm_num)
  have w2 := writeBits_wf _ 1 1 w1 (by norm_num)
  obtain ⟨s3, h3⟩ := writeBits_prefix _ (riceUval r &&& goMask32 p) p w2 (by omega)
  refine ⟨s1 ++ (s2 ++ s3), ?_⟩
  rw [h3, h2, h1]
  simp [List.append_assoc]

theorem encodeResidual_wf_prefix (e : Encoder) (b : BitWriter) (rs : List Int)
    (hwf : b.wf) :
    (encodeResidual e b rs).wf ∧ ∃ s, (encodeResidual e b rs).buf = b.buf ++ s := by
  unfold encodeResidual
  have w1 := writeBits_wf b 0 2 hwf (by norm_num)
  obtain ⟨s1, h1⟩ := writeBits_prefix b 0 2 hwf (by norm_num)
  have w2 := writeBits_wf _ 0 4 w1 (by norm_num)
  obtain ⟨s2, h2⟩ := writeBits_prefix _ 0 4 w1 (by norm_num)
  have w3 := writeBits_wf _ (findOptimalRiceParameter rs) 4 w2 (by norm_num)
  obtain ⟨s3, h3⟩ := writeBits_prefix _ (findOptimalRiceParameter rs) 4 w2 (by norm_num)
  have hp := findOptimalRiceParameter_le rs
  have hfold : ∀ (l : List Int) (bb : BitWriter), bb.wf →
      (l.foldl (fun acc r => encodeRice acc r (findOptimalRiceParameter rs)) bb).wf
      ∧ ∃ s, (l.foldl (fun acc r => encodeRice acc r (findOptimalRiceParameter rs))
          bb).buf = bb.buf ++ s := by
    intro l
    induction l with
    | nil => intro bb hbb; exact ⟨hbb, [], by simp⟩
    | cons x t ih =>
      intro bb hbb
      have hw := (encodeRice_spec bb x (findOptimalRiceParameter rs) hbb hp).2
      obtain ⟨sx, hx⟩ := encodeRice_prefix bb x (findOptimalRiceParameter rs) hbb hp
      obtain ⟨hw2, st, hst⟩ := ih (encodeRice bb x (findOptimalRiceParameter rs)) hw
      refine ⟨by simpa using hw2, sx ++ st, ?_⟩
      simp only [List.foldl_cons]
      rw [hst, hx, List.append_assoc]
  obtain ⟨hwf4, s4, h4⟩ := hfold rs _ w3
  refine ⟨hwf4, s1 ++ (s2 ++ (s3 ++ s4)), ?_⟩
  rw [h4, h3, h2, h1]
  simp [List.append_assoc]

theorem writeBitsSigned_wf (b : BitWriter) (v : Int) (n : Nat) (hwf : b.wf)
    (hn : n ≤ 64) : (b.writeBitsSigned v n).wf := by
  unfold BitWriter.writeBitsSigned
  exact writeBits_wf b _ n hwf hn

theorem writeBitsSigned_prefix (b : BitWriter) (v : Int) (n : Nat) (hwf : b.wf)
    (hn : n ≤ 64) : ∃ s, (b.writeBitsSigned v n).buf = b.buf ++ s := by
  unfold BitWriter.writeBitsSigned
  exact writeBits_prefix b _ n hwf hn

theorem except_bind_error {α β : Type} (ex : GoError) (f : α → Except GoError β) :
    (Except.error ex >>= f) = Except.error ex := rfl

theorem except_bind_ok {α β : Type} (v : α) (f : α → Except GoError β) :
    (Except.ok v >>= f) = f v := rfl

theorem except_pure {α : Type} (v : α) : (pure v : Except GoError α) = .ok v := rfl

theorem encodeSubframe_wf_prefix (e : Encoder) (b : BitWriter) (s : List Int)
    (b1 : BitWriter) (hwf : b.wf) (hbps : e.bitsPerSample ≤ 32)
    (hok : encodeSubframe e b s = .ok b1) :
    b1.wf ∧ ∃ t, b1.buf = b.buf ++ t := by
  simp only [encodeSubframe] at hok
  rw [show List.range 2 = [0, 1] from rfl] at hok
  simp only [List.foldlM] at hok
  have w1 := writeBits_wf b 0 1 hwf (by norm_num)
  obtain ⟨p1, hp1⟩ := writeBits_prefix b 0 1 hwf (by norm_num)
  have w2 := writeBits_wf _ (0x08 ||| 2) 6 w1 (by norm_num)
  obtain ⟨p2, hp2⟩ := writeBits_prefix _ (0x08 ||| 2) 6 w1 (by norm_num)
  have w3 := writeBits_wf _ 0 1 w2 (by norm_num)
  obtain ⟨p3, hp3⟩ := writeBits_prefix _ 0 1 w2 (by norm_num)
  cases hg0 : goIndex s 0 with
  | error ex =>
    rw [hg0, except_bind_error, except_bind_error, except_bind_error] at hok
    simp at hok
  | ok v0 =>
    cases hg1 : goIndex s 1 with
    | error ex =>
      rw [hg0, except_bind_ok, except_pure, except_bind_ok, hg1, except_bind_error,
        except_bind_error, except_bind_error] at hok
      simp at hok
    | ok v1 =>
      rw [hg0, except_bind_ok, except_pure, except_bind_ok, hg1, except_bind_ok,
        except_pure, except_bind_ok, except_pure, except_bind_ok, except_pure] at hok
      rw [Except.ok.injEq] at hok
      subst hok
      have w4 := writeBitsSigned_wf _ v0 e.bitsPerSample w3 (by omega)
      obtain ⟨p4, hp4⟩ := writeBitsSigned_prefix _ v0 e.bitsPerSample w3 (by omega)
      have w5 := writeBitsSigned_wf _ v1 e.bitsPerSample w4 (by omega)
      obtain ⟨p5, hp5⟩ := writeBitsSigned_prefix _ v1 e.bitsPerSample w4 (by omega)
      obtain ⟨hw6, p6, hp6⟩ := encodeResidual_wf_prefix e _ (computeResiduals s 2) w5
      refine ⟨hw6, p1 ++ (p2 ++ (p3 ++ (p4 ++ (p5 ++ p6)))), ?_⟩
      rw [hp6, hp5, hp4, hp3, hp2, hp1]
      simp [List.append_assoc]

theorem subframesFold_wf_prefix (e : Encoder) (samples : List (List Int))
    (hbps : e.bitsPerSample ≤ 32) :
    ∀ (chs : List Nat) (b b1 : BitWriter), b.wf →
    (chs.foldlM (fun bb ch => do
      let s ← goIndex samples ch
      encodeSubframe e bb s) b) = .ok b1 →
    b1.wf ∧ ∃ t, b1.buf = b.buf ++ t := by
  intro chs
  induction chs with
  | nil =>
    intro b b1 hb hok
    simp only [List.foldlM, except_pure, Except.ok.injEq] at hok
    subst hok
    exact ⟨hb, [], by simp⟩
  | cons ch t ih =>
    intro b b1 hb hok
    simp only [List.foldlM] at hok
    cases hg : goIndex samples ch with
    | error ex =>
      rw [hg, except_bind_error, except_bind_error] at hok
      simp at hok
    | ok sch =>
      rw [hg, except_bind_ok] at hok
      cases hsf : encodeSubframe e b sch with
      | error ex =>
        rw [hsf, except_bind_error] at hok
        simp at hok
      | ok b2 =>
        rw [hsf, except_bind_ok] at hok
        obtain ⟨hw2, t2, ht2⟩ := encodeSubframe_wf_prefix e b sch b2 hb hbps hsf
        obtain ⟨hw1, t1, ht1⟩ := ih b2 b1 hw2 hok
        exact ⟨hw1, t2 ++ t1, by rw [ht1, ht2, List.append_assoc]⟩

theorem subframesLoop_wf_prefix (e : Encoder) (samples : List (List Int))
    (b b1 : BitWriter) (hb : b.wf) (hbps : e.bitsPerSample ≤ 32)
    (hok : subframesLoop e b samples = .ok b1) :
    b1.wf ∧ ∃ t, b1.buf = b.buf ++ t :=
  subframesFold_wf_prefix e samples hbps (List.range e.channels) b b1 hb hok

/-- Structure of a successfully encoded frame: the pre-CRC header bytes,
then the CRC-8 of exactly those bytes, then the subframe/padding bytes,
then the two big-endian CRC-16 bytes computed over everything before
them. -/
theorem EncodeFrame_shape (e : Encoder) (samples : List (List Int)) (fn : Nat)
    (out : List Nat) (hbps : e.bitsPerSample ≤ 32)
    (hok : EncodeFrame e samples fn = .ok out) :
    ∃ t : List Nat,
      out = (((frameHeader e ((samples.headD []).length) fn).buf
          ++ [calculateCRC8 (frameHeader e ((samples.headD []).length) fn).buf]) ++ t)
        ++ [calculateCRC16 (((frameHeader e ((samples.headD []).length) fn).buf
              ++ [calculateCRC8 (frameHeader e ((samples.headD []).length) fn).buf])
              ++ t) / 256,
            calculateCRC16 (((frameHeader e ((samples.headD []).length) fn).buf
              ++ [calculateCRC8 (frameHeader e ((samples.headD []).length) fn).buf])
              ++ t) % 256] := by
  simp only [EncodeFrame] at hok
  by_cases hne : samples.length ≠ e.channels
  · rw [if_pos hne] at hok
    simp at hok
  · rw [if_neg hne] at hok
    cases samples with
    | nil => simp at hok
    | cons s0 rest =>
      dsimp only at hok
      by_cases hany : rest.any (fun s => s.length ≠ s0.length) = true
      · rw [if_pos hany] at hok
        simp at hok
      · rw [if_neg hany] at hok
        cases hsub : subframesLoop e ((frameHeader e s0.length fn).writeBits
            (calculateCRC8 (frameHeader e s0.length fn).bytes) 8) (s0 :: rest) with
        | error ex =>
          rw [hsub, except_bind_error] at hok
          simp at hok
        | ok b3 =>
          rw [hsub, except_bind_ok, except_pure, Except.ok.injEq] at hok
          subst hok
          obtain ⟨hal, hw⟩ := frameHeader_aligned e s0.length fn
          have hcrc8lt := calculateCRC8_lt (frameHeader e s0.length fn).bytes
          have hbyte := writeBits_byte (frameHeader e s0.length fn)
            (calculateCRC8 (frameHeader e s0.length fn).bytes) hw hal
          rw [Nat.mod_eq_of_lt hcrc8lt] at hbyte
          rw [hbyte] at hsub
          have hbuf2wf : (BitWriter.mk ((frameHeader e s0.length fn).buf
              ++ [calculateCRC8 (frameHeader e s0.length fn).bytes]) 0 0).wf :=
            ⟨by norm_num, by norm_num⟩
          obtain ⟨hw3, t1, ht1⟩ := subframesLoop_wf_prefix e (s0 :: rest) _ b3
            hbuf2wf hbps hsub
          obtain ⟨ha0, haw, t2, ht2⟩ := alignToByte_spec b3 hw3
          have h16 := writeBits_two_bytes b3.alignToByte
            (calculateCRC16 b3.alignToByte.bytes) haw ha0
          have hclt := calculateCRC16_lt b3.alignToByte.bytes
          refine ⟨t1 ++ t2, ?_⟩
          show (b3.alignToByte.writeBits (calculateCRC16 b3.alignToByte.bytes) 16).bytes
            = _
          rw [show BitWriter.bytes (b3.alignToByte.writeBits
              (calculateCRC16 b3.alignToByte.bytes) 16)
            = (b3.alignToByte.writeBits (calculateCRC16 b3.alignToByte.bytes) 16).buf
            from rfl, h16]
          have hbuf4 : b3.alignToByte.buf
              = ((frameHeader e s0.length fn).buf
                ++ [calculateCRC8 (frameHeader e s0.length fn).bytes]) ++ (t1 ++ t2) := by
            rw [ht2, ht1]
            simp [List.append_assoc]
          have hbytes4 : b3.alignToByte.bytes
              = ((frameHeader e s0.length fn).buf
                ++ [calculateCRC8 (frameHeader e s0.length fn).bytes]) ++ (t1 ++ t2) := hbuf4
          have hhi : (calculateCRC16 b3.alignToByte.bytes >>> 8) % 256
              = calculateCRC16 b3.alignToByte.bytes / 256 := by
            rw [Nat.shiftRight_eq_div_pow]
            have : calculateCRC16 b3.alignToByte.bytes / 2 ^ 8 < 256 := by omega
            rw [Nat.mod_eq_of_lt this]
            norm_num
          rw [hhi, hbuf4, hbytes4]
          have hhead : ((s0 :: rest).headD []).length = s0.length := rfl
          rw [hhead]
          have hbytesdef : (frameHeader e s0.length fn).bytes
              = (frameHeader e s0.length fn).buf := rfl
          rw [hbytesdef]

/-- C5: claim "in every emitted frame, the CRC-8 byte equals CRC-8
(polynomial 0x07, initial register 0) of exactly the header bytes from the
first sync byte up to but not including the CRC-8 byte - the writer is
byte-aligned at the frame-number field because the preceding fields total
32 bits - and the final two bytes of the frame are the big-endian CRC-16
(polynomial 0x8005, initial register 0) of every preceding byte of the
frame, including the CRC-8 byte and the alignment padding."  Confirmed:
for every frame EncodeFrame successfully emits, the byte right after the
pre-CRC header equals the CRC-8 of exactly those header bytes, the fixed
header fields leave the writer byte-aligned at the frame-number field, and
the last two bytes are the big-endian CRC-16 of all preceding frame
bytes. -/
theorem C5_frame_crc_bytes (e : Encoder) (samples : List (List Int)) (fn : Nat)
    (out : List Nat) (hbps : e.bitsPerSample ≤ 32)
    (hok : EncodeFrame e samples fn = .ok out) :
    (frameHeaderFixed e ((samples.headD []).length)).bitCount = 0
    ∧ out.take (frameHeader e ((samples.headD []).length) fn).buf.length
        = (frameHeader e ((samples.headD []).length) fn).buf
    ∧ out.getD (frameHeader e ((samples.headD []).length) fn).buf.length 0
        = calculateCRC8 (out.take
            (frameHeader e ((samples.headD []).length) fn).buf.length)
    ∧ 2 ≤ out.length
    ∧ out.drop (out.length - 2)
        = [calculateCRC16 (out.take (out.length - 2)) / 256,
           calculateCRC16 (out.take (out.length - 2)) % 256] := by
  obtain ⟨t, ht⟩ := EncodeFrame_shape e samples fn out hbps hok
  set hdr := (frameHeader e ((samples.headD []).length) fn).buf with hhdr
  set c8 := calculateCRC8 hdr with hc8
  set body := (hdr ++ [c8]) ++ t with hbody
  set c16 := calculateCRC16 body with hc16
  have htake : out.take hdr.length = hdr := by
    rw [ht]
    have hshape : body ++ [c16 / 256, c16 % 256]
        = hdr ++ ([c8] ++ t ++ [c16 / 256, c16 % 256]) := by
      rw [hbody]
      simp [List.append_assoc]
    rw [hshape]
    exact List.take_left hdr _
  refine ⟨(frameHeaderFixed_aligned e ((samples.headD []).length)).1, htake, ?_, ?_, ?_⟩
  · rw [htake, ht]
    have hshape : body ++ [c16 / 256, c16 % 256]
        = hdr ++ (c8 :: (t ++ [c16 / 256, c16 % 256])) := by
      rw [hbody]
      simp [List.append_assoc]
    rw [hshape]
    simp [List.getD_append_right, List.getElem_append_right]
  · rw [ht]
    simp [hbody]
    omega
  · have hlen : out.length - 2 = body.length := by
      rw [ht]
      simp
    rw [hlen, ht, List.take_left body _, List.drop_left body _]

set_option maxRecDepth 8000 in
/-- Witness for C5 at a concrete one-channel 8-bit frame of two zero
samples. -/
theorem C5_frame_crc_bytes_witness :
    (frameHeaderFixed ⟨44100, 1, 8, 0, 4096⟩
        (([[(0 : Int), 0]].headD []).length)).bitCount = 0
    ∧ ([255, 248, 105, 2, 0, 1, 157, 20, 0, 0, 0, 0, 248, 224] : List Nat).take
        (frameHeader ⟨44100, 1, 8, 0, 4096⟩ (([[(0 : Int), 0]].headD []).length)
          0).buf.length
      = (frameHeader ⟨44100, 1, 8, 0, 4096⟩ (([[(0 : Int), 0]].headD []).length) 0).buf
    ∧ ([255, 248, 105, 2, 0, 1, 157, 20, 0, 0, 0, 0, 248, 224] : List Nat).getD
        (frameHeader ⟨44100, 1, 8, 0, 4096⟩ (([[(0 : Int), 0]].headD []).length)
          0).buf.length 0
      = calculateCRC8 (([255, 248, 105, 2, 0, 1, 157, 20, 0, 0, 0, 0, 248,
          224] : List Nat).take
          (frameHeader ⟨44100, 1, 8, 0, 4096⟩ (([[(0 : Int), 0]].headD []).length)
            0).buf.length)
    ∧ 2 ≤ ([255, 248, 105, 2, 0, 1, 157, 20, 0, 0, 0, 0, 248, 224] : List Nat).length
    ∧ ([255, 248, 105, 2, 0, 1, 157, 20, 0, 0, 0, 0, 248, 224] : List Nat).drop
        (([255, 248, 105, 2, 0, 1, 157, 20, 0, 0, 0, 0, 248, 224] : List Nat).length - 2)
      = [calculateCRC16 (([255, 248, 105, 2, 0, 1, 157, 20, 0, 0, 0, 0, 248,
            224] : List Nat).take
            (([255, 248, 105, 2, 0, 1, 157, 20, 0, 0, 0, 0, 248,
              224] : List Nat).length - 2)) / 256,
         calculateCRC16 (([255, 248, 105, 2, 0, 1, 157, 20, 0, 0, 0, 0, 248,
            224] : List Nat).take
            (([255, 248, 105, 2, 0, 1, 157, 20, 0, 0, 0, 0, 248,
              224] : List Nat).length - 2)) % 256] :=
  C5_frame_crc_bytes ⟨44100, 1, 8, 0, 4096⟩ [[0, 0]] 0
    [255, 248, 105, 2, 0, 1, 157, 20, 0, 0, 0, 0, 248, 224] (by norm_num) rfl

set_option maxRecDepth 4000 in
/-- C7: claim "getBlockSizeCode maps 192 to 0x1; 576/1152/2304/4608 to
0x2..0x5; 256/512/1024/2048/4096/8192/16384/32768 to 0x8..0xF; any other
size ≤ 256 to 0x6 (8-bit n-1 trailer) and any other size to 0x7 (16-bit
n-1 trailer); it never returns the reserved code 0x0.  In particular, 5000
input samples produce a second frame with code 0x7 and 16-bit trailer
903."  Confirmed; the last conjuncts pin down the 5000-sample scenario:
the second block has 5000 - 4096 = 904 samples, and the bit-exact frame
header for block size 904 and frame number 1 carries code 0x7 and the
16-bit trailer 903. -/
theorem C7_block_size_code :
    (∀ n : Nat, getBlockSizeCode n ≠ 0x0)
    ∧ getBlockSizeCode 192 = 0x1
    ∧ getBlockSizeCode 576 = 0x2 ∧ getBlockSizeCode 1152 = 0x3
    ∧ getBlockSizeCode 2304 = 0x4 ∧ getBlockSizeCode 4608 = 0x5
    ∧ getBlockSizeCode 256 = 0x8 ∧ getBlockSizeCode 512 = 0x9
    ∧ getBlockSizeCode 1024 = 0xA ∧ getBlockSizeCode 2048 = 0xB
    ∧ getBlockSizeCode 4096 = 0xC ∧ getBlockSizeCode 8192 = 0xD
    ∧ getBlockSizeCode 16384 = 0xE ∧ getBlockSizeCode 32768 = 0xF
    ∧ (∀ n : Nat, n ∉ ([192, 576, 1152, 2304, 4608, 256, 512, 1024, 2048, 4096,
        8192, 16384, 32768] : List Nat) → n ≤ 256 → getBlockSizeCode n = 0x6)
    ∧ (∀ n : Nat, n ∉ ([192, 576, 1152, 2304, 4608, 256, 512, 1024, 2048, 4096,
        8192, 16384, 32768] : List Nat) → 256 < n → getBlockSizeCode n = 0x7)
    ∧ min 4096 (5000 - 1 * 4096) = 904
    ∧ (frameHeader ⟨44100, 1, 16, 0, 4096⟩ 904 1).bitstream
      = natToBits 14 0x3FFE ++ natToBits 1 0 ++ natToBits 1 0 ++ natToBits 4 0x7
        ++ natToBits 4 0x9 ++ natToBits 4 0 ++ natToBits 3 0x4 ++ natToBits 1 0
        ++ natToBits 8 1 ++ natToBits 16 903 := by
  refine ⟨?_, by decide, by decide, by decide, by decide, by decide, by decide,
    by decide, by decide, by decide, by decide, by decide, by decide, by decide,
    ?_, ?_, by decide, by decide⟩
  · intro n
    by_cases h : n ∈ ([192, 576, 1152, 2304, 4608, 256, 512, 1024, 2048, 4096,
        8192, 16384, 32768] : List Nat)
    · fin_cases h <;> decide
    · simp only [List.mem_cons, List.not_mem_nil, or_false, not_or] at h
      obtain ⟨h1, h2, h3, h4, h5, h6, h7, h8, h9, h10, h11, h12, h13⟩ := h
      by_cases hle : n ≤ 256
      · simp [getBlockSizeCode, h1, h2, h3, h4, h5, h6, h7, h8, h9, h10, h11,
          h12, h13, hle]
      · simp [getBlockSizeCode, h1, h2, h3, h4, h5, h6, h7, h8, h9, h10, h11,
          h12, h13, hle]
  · intro n hn hle
    simp only [List.mem_cons, List.not_mem_nil, or_false, not_or] at hn
    obtain ⟨h1, h2, h3, h4, h5, h6, h7, h8, h9, h10, h11, h12, h13⟩ := hn
    simp [getBlockSizeCode, h1, h2, h3, h4, h5, h6, h7, h8, h9, h10, h11, h12,
      h13, hle]
  · intro n hn hgt
    simp only [List.mem_cons, List.not_mem_nil, or_false, not_or] at hn
    obtain ⟨h1, h2, h3, h4, h5, h6, h7, h8, h9, h10, h11, h12, h13⟩ := hn
    simp [getBlockSizeCode, h1, h2, h3, h4, h5, h6, h7, h8, h9, h10, h11, h12,
      h13]
    omega

/-- Witness for C7 on the 0x6 and 0x7 default branches. -/
theorem C7_block_size_code_witness :
    getBlockSizeCode 100 = 0x6 ∧ getBlockSizeCode 904 = 0x7 :=
  ⟨C7_block_size_code.2.2.2.2.2.2.2.2.2.2.2.2.2.2.1 100 (by decide) (by decide),
    C7_block_size_code.2.2.2.2.2.2.2.2.2.2.2.2.2.2.2.1 904 (by decide) (by decide)⟩

/-! Success of the block loop on rectangular input, for the frame-count
claim. -/

theorem encodeSubframe_isOk (e : Encoder) (b : BitWriter) (s : List Int)
    (h2 : 2 ≤ s.length) : ∃ b1, encodeSubframe e b s = .ok b1 := by
  simp only [encodeSubframe]
  rw [show List.range 2 = [0, 1] from rfl]
  simp only [List.foldlM]
  obtain ⟨v0, hg0⟩ : ∃ v, goIndex s 0 = .ok v := by
    unfold goIndex
    rw [dif_pos (show 0 < s.length by omega)]
    exact ⟨_, rfl⟩
  obtain ⟨v1, hg1⟩ : ∃ v, goIndex s 1 = .ok v := by
    unfold goIndex
    rw [dif_pos (show 1 < s.length by omega)]
    exact ⟨_, rfl⟩
  rw [hg0, except_bind_ok, except_pure, except_bind_ok, hg1, except_bind_ok,
    except_pure, except_bind_ok, except_pure, except_bind_ok, except_pure]
  exact ⟨_, rfl⟩

theorem subframesFold_isOk (e : Encoder) (samples : List (List Int))
    (hall : ∀ s ∈ samples, 2 ≤ s.length) :
    ∀ (chs : List Nat) (b : BitWriter), (∀ ch ∈ chs, ch < samples.length) →
    ∃ b1, (chs.foldlM (fun bb ch => do
      let s ← goIndex samples ch
      encodeSubframe e bb s) b) = .ok b1 := by
  intro chs
  induction chs with
  | nil => intro b _; exact ⟨b, rfl⟩
  | cons ch t ih =>
    intro b hch
    have hlt : ch < samples.length := hch ch (by simp)
    have hg : goIndex samples ch = .ok (samples.get ⟨ch, hlt⟩) := by
      unfold goIndex
      rw [dif_pos hlt]
    obtain ⟨b2, hb2⟩ := encodeSubframe_isOk e b (samples.get ⟨ch, hlt⟩)
      (hall _ (samples.get_mem ch hlt))
    obtain ⟨b1, hb1⟩ := ih b2 (fun c hc => hch c (by simp [hc]))
    refine ⟨b1, ?_⟩
    simp only [List.foldlM]
    rw [hg, except_bind_ok, hb2, except_bind_ok, hb1]

theorem subframesLoop_isOk (e : Encoder) (b : BitWriter) (samples : List (List Int))
    (hch : samples.length = e.channels) (hall : ∀ s ∈ samples, 2 ≤ s.length) :
    ∃ b1, subframesLoop e b samples = .ok b1 := by
  apply subframesFold_isOk e samples hall (List.range e.channels) b
  intro ch hc
  rw [hch]
  exact List.mem_range.mp hc

theorem EncodeFrame_isOk (e : Encoder) (block : List (List Int)) (fn m : Nat)
    (hch : block.length = e.channels) (hpos : 1 ≤ e.channels)
    (hlen : ∀ s ∈ block, s.length = m) (hm : 2 ≤ m) :
    ∃ out, EncodeFrame e block fn = .ok out := by
  cases block with
  | nil => rw [List.length_nil] at hch; omega
  | cons s0 rest =>
    simp only [EncodeFrame]
    rw [if_neg (by rw [hch]; exact fun h => h rfl)]
    rw [if_neg ?hany]
    case hany =>
      simp only [List.any_eq_true, decide_eq_true_eq, not_exists, not_and]
      intro x hx
      rw [hlen x (by simp [hx]), hlen s0 (by simp)]
      simp
    obtain ⟨b3, hb3⟩ := subframesLoop_isOk e
      ((frameHeader e s0.length fn).writeBits
        (calculateCRC8 (frameHeader e s0.length fn).bytes) 8) (s0 :: rest) hch
      (fun s hs => by rw [hlen s hs]; exact hm)
    rw [hb3, except_bind_ok, except_pure]
    exact ⟨_, rfl⟩

theorem extractLoop_ok (samples : List (List Int)) (start end_ N : Nat)
    (hlen : ∀ s ∈ samples, s.length = N) (hse : start ≤ end_) (heN : end_ ≤ N) :
    ∀ (chs : List Nat), (∀ ch ∈ chs, ch < samples.length) →
    ∃ block, extractLoop samples start end_ chs = .ok block
      ∧ block.length = chs.length
      ∧ ∀ sl ∈ block, sl.length = end_ - start := by
  intro chs
  induction chs with
  | nil => intro _; exact ⟨[], rfl, rfl, by simp⟩
  | cons ch t ih =>
    intro hch
    have hlt : ch < samples.length := hch ch (by simp)
    obtain ⟨blockT, hT, hTlen, hTall⟩ := ih (fun c hc => hch c (by simp [hc]))
    have hg : goIndex samples ch = .ok (samples.get ⟨ch, hlt⟩) := by
      unfold goIndex
      rw [dif_pos hlt]
    have hslen : (samples.get ⟨ch, hlt⟩).length = N :=
      hlen _ (samples.get_mem ch hlt)
    have hsl : goSlice (samples.get ⟨ch, hlt⟩) start end_
        = .ok (((samples.get ⟨ch, hlt⟩).drop start).take (end_ - start)) := by
      unfold goSlice
      rw [if_pos ⟨hse, by rw [hslen]; exact heN⟩]
    refine ⟨((samples.get ⟨ch, hlt⟩).drop start).take (end_ - start) :: blockT,
      ?_, by simp [hTlen], ?_⟩
    · simp only [extractLoop]
      rw [hg, except_bind_ok, hsl, except_bind_ok, hT, except_bind_ok, except_pure]
    · intro sl hsl2
      rcases List.mem_cons.mp hsl2 with h | h
      · subst h
        rw [List.length_take, List.length_drop, hslen]
        omega
      · exact hTall sl h

theorem encodeBlocks_spec (e : Encoder) (samples : List (List Int)) (N : Nat)
    (hch : samples.length = e.channels) (hpos : 1 ≤ e.channels)
    (hlen : ∀ s ∈ samples, s.length = N) (hB : e.blockSize = 4096)
    (hmod : N % 4096 ≠ 1) :
    ∀ (r bn : Nat), bn + r = (N + 4096 - 1) / 4096 →
    ∃ frames : List (List Nat),
      encodeBlocks e samples N bn r = .ok frames.flatten
      ∧ frames.length = r
      ∧ ∀ i, i < r → ∃ block : List (List Int),
          block.length = e.channels
          ∧ (∀ s ∈ block, s.length = min 4096 (N - (bn + i) * 4096))
          ∧ EncodeFrame e block (bn + i) = .ok (frames.getD i []) := by
  intro r
  induction r with
  | zero =>
    intro bn _
    exact ⟨[], rfl, rfl, fun i hi => absurd hi (by omega)⟩
  | succ r ih =>
    intro bn hbn
    have hstart : bn * 4096 < N := by omega
    simp only [encodeBlocks]
    rw [hB]
    have hendle : (if bn * 4096 + 4096 > N then N else bn * 4096 + 4096) ≤ N ∧
        bn * 4096 ≤ (if bn * 4096 + 4096 > N then N else bn * 4096 + 4096) ∧
        (if bn * 4096 + 4096 > N then N else bn * 4096 + 4096) - bn * 4096
          = min 4096 (N - bn * 4096) ∧
        2 ≤ (if bn * 4096 + 4096 > N then N else bn * 4096 + 4096) - bn * 4096 := by
      refine ⟨?_, ?_, ?_, ?_⟩ <;> split_ifs <;> omega
    obtain ⟨hend1, hend2, hend3, hend4⟩ := hendle
    obtain ⟨block, hblock, hblen, hball⟩ := extractLoop_ok samples (bn * 4096)
      (if bn * 4096 + 4096 > N then N else bn * 4096 + 4096) N hlen hend2 hend1
      (List.range e.channels)
      (fun ch hc => by rw [hch]; exact List.mem_range.mp hc)
    simp only [extractBlock]
    rw [hblock, except_bind_ok]
    have hblockch : block.length = e.channels := by
      rw [hblen, List.length_range]
    obtain ⟨out, hout⟩ := EncodeFrame_isOk e block bn (min 4096 (N - bn * 4096))
      hblockch hpos (fun s hs => by rw [hball s hs, hend3]) (by omega)
    rw [hout, except_bind_ok]
    obtain ⟨framesT, hT, hTlen, hTall⟩ := ih (bn + 1) (by omega)
    rw [hT, except_bind_ok, except_pure]
    refine ⟨out :: framesT, by rw [List.flatten_cons], by simp [hTlen], ?_⟩
    intro i hi
    cases i with
    | zero =>
      refine ⟨block, hblockch, ?_, ?_⟩
      · intro s hs
        rw [hball s hs, hend3, Nat.add_zero]
      · rw [Nat.add_zero]
        simpa using hout
    | succ j =>
      obtain ⟨blockj, h1, h2, h3⟩ := hTall j (by omega)
      refine ⟨blockj, h1, ?_, ?_⟩
      · intro s hs
        have hs2 := h2 s hs
        rw [show bn + 1 + j = bn + (j + 1) from by omega] at hs2
        exact hs2
      · rw [show bn + (j + 1) = bn + 1 + j from by omega, h3]
        simp

/-- C4 counterexample: claim says a one-sample input yields the stream
header plus ceil(1/4096) = 1 frame; the code instead panics in the order-2
warm-up of the subframe coder. -/
theorem C4_encode_single_sample_cex :
    Encode ⟨44100, 1, 16, 0, 4096⟩ [[0]]
      = .error (.runtime "index out of range")
    ∧ ((1 : Nat) + 4096 - 1) / 4096 = 1 :=
  ⟨rfl, by norm_num⟩

/-- C4 (amended): claim "for every rectangular input with N samples per
channel, Encode writes the stream header plus exactly ceil(N/4096) frames;
every frame's block size is 4096 except possibly the last, whose block
size is N mod 4096 when that is nonzero; when N = 0 the output is exactly
the stream header and STREAMINFO with no frames" - amended to require
N mod 4096 ≠ 1, because a final single-sample block makes the order-2
subframe encoder panic (see the counterexample and C10).  The i-th frame
is encoded from a block whose per-channel length is min 4096 (N - i*4096):
4096 for every frame but the last, and N mod 4096 for the last when that
is nonzero. -/
theorem C4_encode_frame_structure (e : Encoder) (samples : List (List Int)) (N : Nat)
    (hch : samples.length = e.channels) (hpos : 1 ≤ e.channels)
    (hlen : ∀ s ∈ samples, s.length = N) (hB : e.blockSize = 4096)
    (hmod : N % 4096 ≠ 1) :
    ∃ frames : List (List Nat),
      Encode e samples = .ok (writeStreamInfo e ++ frames.flatten)
      ∧ frames.length = (N + 4096 - 1) / 4096
      ∧ (∀ i, i < frames.length → ∃ block : List (List Int),
          block.length = e.channels
          ∧ (∀ s ∈ block, s.length = min 4096 (N - i * 4096))
          ∧ EncodeFrame e block i = .ok (frames.getD i []))
      ∧ (∀ i, i + 1 < frames.length → min 4096 (N - i * 4096) = 4096)
      ∧ (0 < frames.length → N % 4096 ≠ 0 →
          min 4096 (N - (frames.length - 1) * 4096) = N % 4096)
      ∧ (N % 4096 = 0 → ∀ i, i < frames.length → min 4096 (N - i * 4096) = 4096)
      ∧ (N = 0 → Encode e samples = .ok (writeStreamInfo e)) := by
  cases samples with
  | nil => rw [List.length_nil] at hch; omega
  | cons s0 rest =>
    have hs0 : s0.length = N := hlen s0 (by simp)
    obtain ⟨frames, hrun, hflen, hfall⟩ := encodeBlocks_spec e (s0 :: rest) N hch
      hpos hlen hB hmod ((N + 4096 - 1) / 4096) 0 (by omega)
    have hT : (s0.length + e.blockSize - 1) / e.blockSize = (N + 4096 - 1) / 4096 := by
      rw [hs0, hB]
    refine ⟨frames, ?_, by rw [hflen], ?_, ?_, ?_, ?_, ?_⟩
    · simp only [Encode]
      rw [hT, hs0, hrun, except_bind_ok, except_pure]
    · intro i hi
      rw [hflen] at hi
      obtain ⟨block, h1, h2, h3⟩ := hfall i hi
      rw [Nat.zero_add] at h2 h3
      exact ⟨block, h1, h2, h3⟩
    · intro i hi
      rw [hflen] at hi
      omega
    · intro hpos2 hm0
      rw [hflen] at hpos2 ⊢
      have : ((N + 4096 - 1) / 4096 - 1) * 4096 = ((N + 4096 - 1) / 4096) * 4096
          - 4096 := by
        have h1 : 1 ≤ (N + 4096 - 1) / 4096 := hpos2
        omega
      omega
    · intro hm0 i hi
      rw [hflen] at hi
      omega
    · intro hN0
      subst hN0
      have hzero : frames.length = 0 := by rw [hflen]
      have hnil : frames = [] := List.length_eq_zero.mp hzero
      subst hnil
      simp only [Encode]
      rw [hT, hs0, hrun, except_bind_ok, except_pure]
      simp

/-- Witness for C4 at a concrete three-sample mono input. -/
theorem C4_encode_frame_structure_witness :
    ∃ frames : List (List Nat),
      Encode ⟨44100, 1, 16, 0, 4096⟩ [[0, 0, 0]]
        = .ok (writeStreamInfo ⟨44100, 1, 16, 0, 4096⟩ ++ frames.flatten)
      ∧ frames.length = ((3 : Nat) + 4096 - 1) / 4096
      ∧ (∀ i, i < frames.length → ∃ block : List (List Int),
          block.length = (⟨44100, 1, 16, 0, 4096⟩ : Encoder).channels
          ∧ (∀ s ∈ block, s.length = min 4096 (3 - i * 4096))
          ∧ EncodeFrame ⟨44100, 1, 16, 0, 4096⟩ block i = .ok (frames.getD i []))
      ∧ (∀ i, i + 1 < frames.length → min 4096 ((3 : Nat) - i * 4096) = 4096)
      ∧ (0 < frames.length → (3 : Nat) % 4096 ≠ 0 →
          min 4096 ((3 : Nat) - (frames.length - 1) * 4096) = 3 % 4096)
      ∧ ((3 : Nat) % 4096 = 0 → ∀ i, i < frames.length →
          min 4096 ((3 : Nat) - i * 4096) = 4096)
      ∧ ((3 : Nat) = 0 → Encode ⟨44100, 1, 16, 0, 4096⟩ [[0, 0, 0]]
          = .ok (writeStreamInfo ⟨44100, 1, 16, 0, 4096⟩)) :=
  C4_encode_frame_structure ⟨44100, 1, 16, 0, 4096⟩ [[0, 0, 0]] 3 rfl
    (by norm_num) (by intro s hs; simp at hs; subst hs; rfl) rfl (by norm_num)

end Goflac
